import Mathlib

/-!
# FileTransferClientServer: the secure channel and its bulk transfer

A shallow embedding of `source/SecureConnection.cpp` (with `SecureConnection.h`
and `IClientServerTCP.h`) and of the connection handling of
`source/server_ftp.cpp`.

Conventions of the embedding.

* A byte is a `Fin 256`; a buffer is a list of bytes.
* Machine integers are integers with explicit reduction: a value stored in an
  `int` is narrowed by `toInt32` (32 bits, two's complement) and arithmetic
  on a `size_t` is reduced by `toSizeT` (64 bits).
* The transport (`IClientServerTCP`) is seen from one endpoint: the list of the
  results that the successive calls of `recvMsg` return, and a trace that
  records every call of `sendMsg`.  When the list is exhausted the next
  `recvMsg` never returns; a run then has no return value.
* `SecureMessageCreator` is not among the sources; it is a parameter.
* A `char*` that the code reads as a C string (`string(ack)`, `ss << writer`,
  `cout << writer`) is read up to its first NUL byte.
* Locals that the code declares without an initial value and may read before
  assigning them (`writer` and `fileSize` of the receivers) start with an
  arbitrary value, which is a parameter of the operation.
* Diagnostic output on `cout`/`cerr` is not recorded, with the exception of
  the payload that `reciveAndPrintBigMessage` displays.
-/

namespace FileTransfer

/-! ## Data model -/

/-- One `char` of a buffer. -/
abbrev Byte := Fin 256

/-- The constant `BUFF_SIZE` of `SecureConnection.h`. -/
def BUFF_SIZE : Nat := 4096

/-- The crypto capability `SecureMessageCreator`, whose source is not part of
the repository sources at hand.  `EncryptAndSignMessage` maps a plaintext to
its envelope; `DecryptAndCheckSign` is given the received bytes and the byte
count reported by the transport, and either rejects (`none`, the C++ function
returns `false`) or yields the plaintext, whose length is the `plainTextSize`
it reports. -/
structure SecureMessageCreator where
  EncryptAndSignMessage : List Byte → List Byte
  DecryptAndCheckSign : List Byte → Int → Option (List Byte)

/-- The result of one call of `IClientServerTCP::recvMsg`: the returned byte
count and the buffer it stored through its argument. -/
structure Received where
  numberOfBytes : Int
  buffer : List Byte
deriving DecidableEq

/-- The observable actions of the channel code. -/
inductive Event where
  /-- The call `_csTCP->sendMsg(secureMessage, msgSize)`. -/
  | sendMsg (secureMessage : List Byte)
  /-- The call `_csTCP->recvMsg(...)` returned this result. -/
  | recvMsg (r : Received)
  /-- The call `writeFile.open(filename, ios::binary)`, with whether the stream is open afterwards. -/
  | fileOpen (filename : String) (isOpen : Bool)
  /-- The call `writeFile.write(writer, lenght)`. -/
  | fileWrite (bytes : List Byte)
  /-- The statement `cout << writer` of the streamed payload. -/
  | display (bytes : List Byte)
deriving DecidableEq

/-- A run of one operation: the actions performed, in order, and the value
returned; `ret = none` when the operation is still waiting in `recvMsg`. -/
structure Run where
  trace : List Event
  ret : Option Int
deriving DecidableEq

/-- The run that returns `v` without any further action. -/
def Run.done (v : Int) : Run := ⟨[], some v⟩

/-- The run that waits for a message that never arrives. -/
def Run.blocked : Run := ⟨[], none⟩

/-- Perform action `e`, then continue as `r`. -/
def Run.step (e : Event) (r : Run) : Run := ⟨e :: r.trace, r.ret⟩

/-- The envelopes handed to `sendMsg`, in order. -/
def sentMsgs : List Event → List (List Byte)
  | [] => []
  | .sendMsg m :: es => m :: sentMsgs es
  | _ :: es => sentMsgs es

/-- The results consumed from `recvMsg`, in order. -/
def recvResults : List Event → List Received
  | [] => []
  | .recvMsg r :: es => r :: recvResults es
  | _ :: es => recvResults es

/-- The bytes written to the destination file, in order. -/
def written : List Event → List Byte
  | [] => []
  | .fileWrite b :: es => b ++ written es
  | _ :: es => written es

/-- The payload bytes displayed, in order. -/
def displayed : List Event → List Byte
  | [] => []
  | .display b :: es => b ++ displayed es
  | _ :: es => displayed es

/-- Whether `writeFile.open` was called on the destination. -/
def openCalled : List Event → Bool
  | [] => false
  | .fileOpen _ _ :: _ => true
  | _ :: es => openCalled es

/-! ## C strings and decimal text -/

/-- The value of a `char*` read as a C string: the bytes before the first NUL.
Buffers returned by `DecryptAndCheckSign` are taken to be followed by a NUL, so
a buffer without one reads as the whole buffer. -/
def cString (buf : List Byte) : List Byte := buf.takeWhile (fun b => b != 0)

/-- The ASCII digit of `d % 10`. -/
def digitChar (d : Nat) : Byte := ⟨48 + d % 10, by omega⟩

/-- Decimal digits of `n`, most significant first; `fuel` bounds the number of
digits and `n + 1` always suffices. -/
def natDigits : Nat → Nat → List Byte
  | 0, _ => []
  | fuel + 1, n => if n < 10 then [digitChar n] else natDigits fuel (n / 10) ++ [digitChar n]

/-- Function `std::to_string(int)`: decimal text, with a leading `-` when negative. -/
def to_string (i : Int) : List Byte :=
  if i < 0 then (45 : Byte) :: natDigits (i.natAbs + 1) i.natAbs
  else natDigits (i.toNat + 1) i.toNat

/-- Function `isspace` in the "C" locale. -/
def isSpace (b : Byte) : Bool := b.val == 32 || (9 ≤ b.val && b.val ≤ 13)

/-- Function `isdigit`. -/
def isDigit (b : Byte) : Bool := 48 ≤ b.val && b.val ≤ 57

/-- The largest `size_t` (64-bit). -/
def SIZE_MAX : Nat := 2 ^ 64 - 1

/-- Arithmetic on `size_t`: reduction modulo `2 ^ 64`. -/
def toSizeT (n : Nat) : Nat := n % (SIZE_MAX + 1)

/-- The conversion of an integer value to `int`: 32 bits, two's complement. -/
def toInt32 (v : Int) : Int := (v + 2 ^ 31) % 2 ^ 32 - 2 ^ 31

/-- The value of a run of decimal digits. -/
def digitsValue (ds : List Byte) : Nat := ds.foldl (fun acc d => acc * 10 + (d.val - 48)) 0

/-- The statements `stringstream ss; ss << text; ss >> fileSize` for
`size_t fileSize`, where the second argument is the value of the variable
`fileSize` before the extraction.  Leading white space is skipped; when the
text ends there, the extraction fails before any conversion and the variable
keeps its value.  Otherwise an optional sign is read, then the longest run of
decimal digits: without any digit the conversion fails and stores 0; a value
above `SIZE_MAX` stores `SIZE_MAX`; a `-` sign negates modulo `2 ^ 64`. -/
def extractSize (text : List Byte) (fileSize : Nat) : Nat :=
  match text.dropWhile isSpace with
  | [] => fileSize
  | b :: t =>
    let signed : Bool × List Byte :=
      if b = 45 then (true, t) else if b = 43 then (false, t) else (false, b :: t)
    let digits := signed.2.takeWhile isDigit
    if digits = [] then 0
    else if SIZE_MAX < digitsValue digits then SIZE_MAX
    else if signed.1 then (2 ^ 64 - digitsValue digits) % 2 ^ 64
    else digitsValue digits

/-- The literal `"OK"` as a C string value. -/
def strOK : List Byte := [79, 75]

/-- The 3 bytes of `sendSecureMsg((void*)"OK",3)`: `O`, `K`, NUL. -/
def ackOK : List Byte := [79, 75, 0]

/-- The 21 bytes of `sendSecureMsg((void*)"ERROR Hash not valid",21)`: the
text and its terminating NUL. -/
def ackError : List Byte :=
  [69, 82, 82, 79, 82, 32, 72, 97, 115, 104, 32, 110, 111, 116, 32, 118, 97, 108, 105, 100, 0]

/-! ## Secure messaging -/

/-- Method `SecureConnection::sendSecureMsg`: the envelope of the buffer is handed to
the transport. -/
def sendSecureMsg (c : SecureMessageCreator) (buffer : List Byte) : Event :=
  .sendMsg (c.EncryptAndSignMessage buffer)

/-- Method `SecureConnection::recvSecureMsg`, applied to the result `r` of its call of
`recvMsg`.  `plainText` is the caller's pointer variable on entry; the second
component is that variable on return.  It is not assigned when the peer closed.
Whether `DecryptAndCheckSign` assigns it before rejecting is not visible in
the sources; no caller reads it in that case and the model leaves it as it was. -/
def recvSecureMsg (c : SecureMessageCreator) (r : Received) (plainText : List Byte) :
    Int × List Byte :=
  if r.numberOfBytes = 0 then (0, plainText)
  else
    match c.DecryptAndCheckSign r.buffer r.numberOfBytes with
    | none => (-1, plainText)
    | some p => ((p.length : Int), p)

/-! ## Bulk transfer: the sender -/

/-- The loop `while (!file.eof())` of `sendFile`, entered with the end-of-file
flag clear.  `rest` is the part of the file after the read position and
`fileSended` the `size_t` counter; every iteration takes one result from
`incoming` for its call of `recvSecureMsg`.  The value returned is the counter
narrowed to the return type `int`. -/
def sendChunks (c : SecureMessageCreator) : List Received → List Byte → Nat → Run
  | incoming, rest, fileSended =>
    -- file.read(buffer, BUFF_SIZE); readedBytes = file.gcount();
    -- the read sets eofbit when the file ends before BUFF_SIZE bytes were read
    let buffer := rest.take BUFF_SIZE
    let readedBytes := buffer.length
    let eof : Bool := decide (rest.length < BUFF_SIZE)
    Run.step (sendSecureMsg c buffer) <|
      match incoming with
      | [] => Run.blocked
      | r :: incoming' =>
        Run.step (.recvMsg r) <|
          -- `ack` is read only after a successful receive has assigned it
          let res := recvSecureMsg c r []
          let ret := res.1
          let ack := res.2
          if ret = 0 then Run.done 0
          else if ret < 0 then Run.done (-1)
          else if cString ack ≠ strOK then Run.done (-2)
          else if eof then Run.done (toInt32 (toSizeT (fileSended + readedBytes) : Nat))
          else sendChunks c incoming' (rest.drop BUFF_SIZE) (toSizeT (fileSended + readedBytes))

/-- Method `SecureConnection::sendFile`.  `file` is `none` for a stream that is
not open and otherwise holds the content of the file; `incoming` lists the
results of the calls of `recvMsg`.  `int fileSize = file.tellg()` narrows the
length of the file to `int`.  The flag `stars` is not used: the code that
printed progress marks is commented out in the source. -/
def sendFile (c : SecureMessageCreator) (file : Option (List Byte)) (_stars : Bool)
    (incoming : List Received) : Run :=
  match file with
  | none => Run.done (-1)
  | some content =>
    let fileSize : Int := toInt32 (content.length : Int)
    let strFileSize := to_string fileSize
    Run.step (sendSecureMsg c strFileSize) <|
      if fileSize = 0 then Run.done (toInt32 0)
      else sendChunks c incoming content 0

/-! ## Bulk transfer: the receivers -/

/-- The loop `for (writedBytes = 0; writedBytes < fileSize; writedBytes += lenght)`
of `receiveFile`, from the test of its condition.  Inside the loop `writer` is
read only after a successful receive has assigned it.  `writedBytes` is a
`size_t`; the value returned after the loop is the counter narrowed to the
return type `int`. -/
def receiveChunks (c : SecureMessageCreator) : List Received → Nat → Nat → Run
  | incoming, fileSize, writedBytes =>
    if writedBytes < fileSize then
      match incoming with
      | [] => Run.blocked
      | r :: incoming' =>
        Run.step (.recvMsg r) <|
          let res := recvSecureMsg c r []
          let lenght := res.1
          let writer := res.2
          if lenght = 0 then Run.done (-1)
          else if lenght < 0 then Run.step (sendSecureMsg c ackError) (Run.done (-2))
          else
            Run.step (sendSecureMsg c ackOK) <|
            Run.step (.fileWrite writer) <|
            receiveChunks c incoming' fileSize (toSizeT (writedBytes + lenght.toNat))
    else Run.done (toInt32 (writedBytes : Nat))

/-- Method `SecureConnection::receiveFile`.  `canOpen` tells which file names
the output stream manages to open.  The locals `writer` and `fileSize` are
declared without an initial value: `writer₀` is what the pointer `writer`
addresses, read as a C string, should the first `recvSecureMsg` leave it
unassigned, and `fileSize₀` is the value of `fileSize` should the extraction
leave it untouched. -/
def receiveFile (c : SecureMessageCreator) (canOpen : String → Bool) (filename : String)
    (writer₀ : List Byte) (fileSize₀ : Nat) (incoming : List Received) : Run :=
  match incoming with
  | [] => Run.blocked
  | r :: incoming' =>
    Run.step (.recvMsg r) <|
      let res := recvSecureMsg c r writer₀
      let lenght := res.1
      let writer := res.2
      if lenght < 0 then Run.done (-1)
      else
        let fileSize := extractSize (cString writer) fileSize₀
        Run.step (.fileOpen filename (canOpen filename)) <|
          if !canOpen filename then Run.done (-2)
          else receiveChunks c incoming' fileSize 0

/-- The loop of `reciveAndPrintBigMessage`, from the test of its condition;
the counter and the returned value as in `receiveChunks`. -/
def printChunks (c : SecureMessageCreator) : List Received → Nat → Nat → Run
  | incoming, fileSize, writedBytes =>
    if writedBytes < fileSize then
      match incoming with
      | [] => Run.blocked
      | r :: incoming' =>
        Run.step (.recvMsg r) <|
          let res := recvSecureMsg c r []
          let lenght := res.1
          let writer := res.2
          if lenght = 0 then Run.done 0
          else if lenght < 0 then Run.step (sendSecureMsg c ackError) (Run.done (-2))
          else
            Run.step (sendSecureMsg c ackOK) <|
            Run.step (.display (cString writer)) <|
            printChunks c incoming' fileSize (toSizeT (writedBytes + lenght.toNat))
    else Run.done (toInt32 (writedBytes : Nat))

/-- Method `SecureConnection::reciveAndPrintBigMessage`; `writer₀` and
`fileSize₀` as in `receiveFile`.  The line break printed after the payload is
not recorded. -/
def reciveAndPrintBigMessage (c : SecureMessageCreator) (writer₀ : List Byte)
    (fileSize₀ : Nat) (incoming : List Received) : Run :=
  match incoming with
  | [] => Run.blocked
  | r :: incoming' =>
    Run.step (.recvMsg r) <|
      let res := recvSecureMsg c r writer₀
      let lenght := res.1
      let writer := res.2
      if lenght < 0 then Run.done (-1)
      else
        let fileSize := extractSize (cString writer) fileSize₀
        printChunks c incoming' fileSize 0

/-! ## A concrete crypto capability for evaluating the model -/

/-- The one-byte tag of the demonstration capability. -/
def tagOf (p : List Byte) : Byte := p.foldl (fun a b => a + b) 90

/-- A demonstration capability: the envelope is the plaintext preceded by a
one-byte tag; verification recomputes the tag and checks the byte count. -/
def tagCrypto : SecureMessageCreator where
  EncryptAndSignMessage := fun p => tagOf p :: p
  DecryptAndCheckSign := fun e n =>
    match e with
    | [] => none
    | t :: p => if t = tagOf p ∧ n = ((p.length + 1 : Nat) : Int) then some p else none

/-- The transport between two endpoints: each `sendMsg` of one side is one
`recvMsg` of the peer, returning the exact byte count and the bytes. -/
def deliver (msgs : List (List Byte)) : List Received :=
  msgs.map (fun m => ⟨(m.length : Int), m⟩)

/-! ## Outcomes of one receive -/

/-- The transport result `r` carries an envelope that `DecryptAndCheckSign`
accepts, with plaintext `p`. -/
def verifies (c : SecureMessageCreator) (r : Received) (p : List Byte) : Prop :=
  r.numberOfBytes ≠ 0 ∧ c.DecryptAndCheckSign r.buffer r.numberOfBytes = some p

/-- The transport result `r` carries an envelope that `DecryptAndCheckSign`
rejects. -/
def rejected (c : SecureMessageCreator) (r : Received) : Prop :=
  r.numberOfBytes ≠ 0 ∧ c.DecryptAndCheckSign r.buffer r.numberOfBytes = none

/-- The transport reported zero bytes: the peer closed the connection. -/
def peerClosed (r : Received) : Prop := r.numberOfBytes = 0

/-- The total number of bytes of a list of chunks. -/
def totalLength (ps : List (List Byte)) : Nat := (ps.map List.length).sum

/-- The transport result `r` is a positive acknowledgment for `sendFile`: it
verifies to a plaintext whose C string value is `"OK"`. -/
def isAck (c : SecureMessageCreator) (r : Received) : Prop :=
  ∃ p, verifies c r p ∧ cString p = strOK

/-- The `i`-th buffer that `sendFile` reads from a file with content `b`. -/
def chunkAt (b : List Byte) (i : Nat) : List Byte := (b.drop (i * BUFF_SIZE)).take BUFF_SIZE

/-- Perform the actions `tr`, then continue as `r`. -/
def Run.after (tr : List Event) (r : Run) : Run := ⟨tr ++ r.trace, r.ret⟩

/-- The actions of the iterations of the sender's loop that read a full buffer
and consume the results `rs`. -/
def fullRounds (c : SecureMessageCreator) : List Received → List Byte → List Event
  | [], _ => []
  | r :: rs, rest =>
    sendSecureMsg c (rest.take BUFF_SIZE) :: Event.recvMsg r :: fullRounds c rs (rest.drop BUFF_SIZE)

/-- A positive acknowledgment as the transport delivers it under `tagCrypto`. -/
def demoAck : Received := ⟨4, tagCrypto.EncryptAndSignMessage ackOK⟩

/-- A file of `n` zero bytes. -/
def zeros (n : Nat) : List Byte := List.replicate n 0

/-- The actions of the iterations of the loop of `receiveFile` that receive
the results `rs`, verified to the plaintexts `ps`. -/
def storeRounds (c : SecureMessageCreator) : List Received → List (List Byte) → List Event
  | r :: rs, p :: ps =>
    Event.recvMsg r :: sendSecureMsg c ackOK :: Event.fileWrite p :: storeRounds c rs ps
  | _, _ => []

/-- The actions of the iterations of the loop of `reciveAndPrintBigMessage`
that receive the results `rs`, verified to the plaintexts `ps`. -/
def showRounds (c : SecureMessageCreator) : List Received → List (List Byte) → List Event
  | r :: rs, p :: ps =>
    Event.recvMsg r :: sendSecureMsg c ackOK :: Event.display (cString p) :: showRounds c rs ps
  | _, _ => []

/-- The crypto capability inverts itself over the transport: an envelope is
never empty, and `DecryptAndCheckSign` applied to the envelope of `p` and its
exact byte count yields `p`. -/
def inverts (c : SecureMessageCreator) : Prop :=
  ∀ p : List Byte, c.EncryptAndSignMessage p ≠ [] ∧
    c.DecryptAndCheckSign (c.EncryptAndSignMessage p)
      ((c.EncryptAndSignMessage p).length : Int) = some p

/-- The joint run of `sendFile` on a file with content `b` and `receiveFile`
on the peer, over a transport that delivers every message once and in order.
Both operations are deterministic and what each does up to a point depends
only on the messages delivered to it so far; round `k + 1` runs each of them
on all the messages that the other had sent in round `k`.  The pair is
(run of `sendFile`, run of `receiveFile`). -/
def exchange (c : SecureMessageCreator) (b : List Byte) (stars : Bool)
    (canOpen : String → Bool) (filename : String) (writer₀ : List Byte) (fileSize₀ : Nat) :
    Nat → Run × Run
  | 0 => (sendFile c (some b) stars [], receiveFile c canOpen filename writer₀ fileSize₀ [])
  | k + 1 =>
    let prev := exchange c b stars canOpen filename writer₀ fileSize₀ k
    (sendFile c (some b) stars (deliver (sentMsgs prev.2.trace)),
     receiveFile c canOpen filename writer₀ fileSize₀ (deliver (sentMsgs prev.1.trace)))

/-- The size announcement "5" as the transport delivers it under `tagCrypto`. -/
def demoSize5 : Received := ⟨2, tagCrypto.EncryptAndSignMessage [53]⟩

/-- The transport result of an orderly close. -/
def demoClosed : Received := ⟨0, []⟩

/-- Two bytes whose tag does not match: `tagCrypto` rejects them. -/
def demoForged : Received := ⟨2, [0, 53]⟩

/-- The chunk `1, 2, 3` as the transport delivers it under `tagCrypto`. -/
def demoChunkA : Received := ⟨4, tagCrypto.EncryptAndSignMessage [1, 2, 3]⟩

/-- The chunk `4, 5` as the transport delivers it under `tagCrypto`. -/
def demoChunkB : Received := ⟨3, tagCrypto.EncryptAndSignMessage [4, 5]⟩

/-- The chunk `1, 2, 3, 4, 5, 6` as the transport delivers it under `tagCrypto`. -/
def demoChunkC : Received := ⟨7, tagCrypto.EncryptAndSignMessage [1, 2, 3, 4, 5, 6]⟩

/-- The text "abc" as the transport delivers it under `tagCrypto`. -/
def demoAbc : Received := ⟨4, tagCrypto.EncryptAndSignMessage [97, 98, 99]⟩

/-- The size announcement "2147483648" as the transport delivers it under
`tagCrypto`. -/
def demoSize2G : Received :=
  ⟨11, tagCrypto.EncryptAndSignMessage [50, 49, 52, 55, 52, 56, 51, 54, 52, 56]⟩

/-- A chunk of 4096 zero bytes as the transport delivers it under `tagCrypto`. -/
def demoBlock : Received := ⟨4097, tagCrypto.EncryptAndSignMessage (zeros 4096)⟩

/-- The size announcement "0" as the transport delivers it under `tagCrypto`. -/
def demoSize0 : Received := ⟨2, tagCrypto.EncryptAndSignMessage [48]⟩

/-- The text holds no decimal size: after the leading white space there is a
character, and it is neither a digit nor a sign. -/
def notDecimal (text : List Byte) : Prop :=
  ∃ b t, text.dropWhile isSpace = b :: t ∧ isDigit b = false ∧ b ≠ 45 ∧ b ≠ 43

/-- The object state of class `SecureConnection` (`SecureConnection.h`) as far
as secure messaging reads it.  The class declares three data members:
`_csTCP`, the transport, which the model sees through traces; `_sMsgCreator`;
and `_certVal`, which the constructor leaves unassigned and secure messaging
does not read.  No member records a phase of the handshake. -/
structure SecureConnection where
  _sMsgCreator : SecureMessageCreator

/-- The constructor `SecureConnection::SecureConnection(csTCP)`: it stores the
transport and `new SecureMessageCreator()`, here `fresh`. -/
def SecureConnection.construct (fresh : SecureMessageCreator) : SecureConnection :=
  ⟨fresh⟩

/-- Method `sendSecureMsg` on a connection object. -/
def SecureConnection.sendSecureMsg (conn : SecureConnection) (buffer : List Byte) : Event :=
  FileTransfer.sendSecureMsg conn._sMsgCreator buffer

/-- Method `recvSecureMsg` on a connection object, applied to the result `r`
of its call of `recvMsg`. -/
def SecureConnection.recvSecureMsg (conn : SecureConnection) (r : Received)
    (plainText : List Byte) : Int × List Byte :=
  FileTransfer.recvSecureMsg conn._sMsgCreator r plainText

/-- The statement `stream >> word` for a `std::string` that is empty before:
leading white space is skipped, then the characters up to the next white
space are taken.  The result is the word (empty when the extraction fails)
and the rest of the stream. -/
def extractWord (text : List Byte) : List Byte × List Byte :=
  let s := text.dropWhile isSpace
  (s.takeWhile (fun b => !isSpace b), s.dropWhile (fun b => !isSpace b))

/-- A byte string as a `std::string` used for a file name. -/
def bytesToString (bs : List Byte) : String := String.mk (bs.map (fun b => Char.ofNat b.val))

/-- One call of `manageConnection` of `server_ftp.cpp`: the channel actions
performed, whether the call returned (it does not while it waits in
`recvMsg`), the global `_activeSocket` afterwards, and the number of calls of
`_server->forceClientDisconnection()`. -/
structure ServerStep where
  trace : List Event
  returned : Bool
  _activeSocket : Int
  disconnections : Nat
deriving DecidableEq

/-- Function `receiveCommad` of `server_ftp.cpp`, applied to the result `r`
of the call of `recvMsg` inside its `recvSecureMsg` and to the value of the
global `_activeSocket`: the text of the returned stream and the global
afterwards. -/
def receiveCommad (c : SecureMessageCreator) (_activeSocket : Int) (r : Received) :
    List Byte × Int :=
  -- `command` is read only after a successful receive has assigned it
  let res := recvSecureMsg c r []
  let bytesRecived := res.1
  let command := res.2
  if bytesRecived < 0 then ([], _activeSocket)
  else if bytesRecived = 0 then ([], -1)
  else (cString command, _activeSocket)

/-- Function `uploadCommand` of `server_ftp.cpp`; `writer₀` and `fileSize₀`
are the uninitialised locals of `receiveFile`. -/
def uploadCommand (c : SecureMessageCreator) (canOpen : String → Bool) (writer₀ : List Byte)
    (fileSize₀ : Nat) (_activeSocket : Int) (fileName : List Byte)
    (incoming : List Received) : ServerStep :=
  let pathFileName := "uploadedFile/" ++ bytesToString fileName
  let run := receiveFile c canOpen pathFileName writer₀ fileSize₀ incoming
  match run.ret with
  | none => ⟨run.trace, false, _activeSocket, 0⟩
  | some res =>
    if res < 0 then ⟨run.trace, true, -1, 1⟩
    else ⟨run.trace, true, _activeSocket, 0⟩

/-- Function `manageConnection` of `server_ftp.cpp`, started with the given
value of the global `_activeSocket`.  The branches for the commands "rl" and
"rf" do nothing: the body of `retriveListCommand` and the call for "rf" are
commented out in the source. -/
def manageConnection (c : SecureMessageCreator) (canOpen : String → Bool) (writer₀ : List Byte)
    (fileSize₀ : Nat) (_activeSocket : Int) (incoming : List Received) : ServerStep :=
  match incoming with
  | [] => ⟨[], false, _activeSocket, 0⟩
  | r :: incoming' =>
    let received := receiveCommad c _activeSocket r
    let commandStream := received.1
    let first := extractWord commandStream
    let command := first.1
    if command = [117] then
      let filename := (extractWord first.2).1
      let up := uploadCommand c canOpen writer₀ fileSize₀ received.2 filename incoming'
      ⟨Event.recvMsg r :: up.trace, up.returned, up._activeSocket, up.disconnections⟩
    else ⟨[Event.recvMsg r], true, received.2, 0⟩

/-- The command "u f" as the transport delivers it under `tagCrypto`. -/
def demoUpload : Received := ⟨4, tagCrypto.EncryptAndSignMessage [117, 32, 102]⟩

/-! ## Basic facts -/

@[simp] theorem Run.trace_step (e : Event) (r : Run) : (Run.step e r).trace = e :: r.trace := rfl

@[simp] theorem Run.ret_step (e : Event) (r : Run) : (Run.step e r).ret = r.ret := rfl

@[simp] theorem Run.trace_done (v : Int) : (Run.done v).trace = [] := rfl

@[simp] theorem Run.ret_done (v : Int) : (Run.done v).ret = some v := rfl

@[simp] theorem Run.trace_blocked : Run.blocked.trace = [] := rfl

@[simp] theorem Run.ret_blocked : Run.blocked.ret = none := rfl

theorem recvSecureMsg_closed (c : SecureMessageCreator) (r : Received) (pt : List Byte)
    (h : peerClosed r) : recvSecureMsg c r pt = (0, pt) := by
  unfold peerClosed at h
  simp [recvSecureMsg, h]

theorem recvSecureMsg_rejected (c : SecureMessageCreator) (r : Received) (pt : List Byte)
    (h : rejected c r) : recvSecureMsg c r pt = (-1, pt) := by
  obtain ⟨h0, hd⟩ := h
  simp [recvSecureMsg, h0, hd]

theorem recvSecureMsg_verifies (c : SecureMessageCreator) (r : Received) (pt p : List Byte)
    (h : verifies c r p) : recvSecureMsg c r pt = ((p.length : Int), p) := by
  obtain ⟨h0, hd⟩ := h
  simp [recvSecureMsg, h0, hd]

theorem cString_ne_nil_of_eq_strOK {p : List Byte} (h : cString p = strOK) : p ≠ [] := by
  intro hp
  subst hp
  simp [cString, strOK] at h

@[simp] theorem Run.after_nil (r : Run) : Run.after [] r = r := rfl

theorem Run.step_after (e : Event) (tr : List Event) (r : Run) :
    Run.step e (Run.after tr r) = Run.after (e :: tr) r := rfl

@[simp] theorem Run.trace_after (tr : List Event) (r : Run) :
    (Run.after tr r).trace = tr ++ r.trace := rfl

@[simp] theorem Run.ret_after (tr : List Event) (r : Run) : (Run.after tr r).ret = r.ret := rfl

@[simp] theorem sentMsgs_nil : sentMsgs [] = [] := rfl

@[simp] theorem sentMsgs_send (m : List Byte) (es : List Event) :
    sentMsgs (Event.sendMsg m :: es) = m :: sentMsgs es := rfl

@[simp] theorem sentMsgs_recv (r : Received) (es : List Event) :
    sentMsgs (Event.recvMsg r :: es) = sentMsgs es := rfl

@[simp] theorem sentMsgs_open (f : String) (o : Bool) (es : List Event) :
    sentMsgs (Event.fileOpen f o :: es) = sentMsgs es := rfl

@[simp] theorem sentMsgs_write (b : List Byte) (es : List Event) :
    sentMsgs (Event.fileWrite b :: es) = sentMsgs es := rfl

@[simp] theorem sentMsgs_display (b : List Byte) (es : List Event) :
    sentMsgs (Event.display b :: es) = sentMsgs es := rfl

@[simp] theorem sentMsgs_secure (c : SecureMessageCreator) (p : List Byte) (es : List Event) :
    sentMsgs (sendSecureMsg c p :: es) = c.EncryptAndSignMessage p :: sentMsgs es := rfl

theorem sentMsgs_append (xs ys : List Event) : sentMsgs (xs ++ ys) = sentMsgs xs ++ sentMsgs ys := by
  induction xs with
  | nil => rfl
  | cons e es ih => cases e <;> simp [sentMsgs, ih]

@[simp] theorem recvResults_nil : recvResults [] = [] := rfl

@[simp] theorem recvResults_send (m : List Byte) (es : List Event) :
    recvResults (Event.sendMsg m :: es) = recvResults es := rfl

@[simp] theorem recvResults_recv (r : Received) (es : List Event) :
    recvResults (Event.recvMsg r :: es) = r :: recvResults es := rfl

@[simp] theorem recvResults_open (f : String) (o : Bool) (es : List Event) :
    recvResults (Event.fileOpen f o :: es) = recvResults es := rfl

@[simp] theorem recvResults_write (b : List Byte) (es : List Event) :
    recvResults (Event.fileWrite b :: es) = recvResults es := rfl

@[simp] theorem recvResults_display (b : List Byte) (es : List Event) :
    recvResults (Event.display b :: es) = recvResults es := rfl

@[simp] theorem recvResults_secure (c : SecureMessageCreator) (p : List Byte) (es : List Event) :
    recvResults (sendSecureMsg c p :: es) = recvResults es := rfl

theorem recvResults_append (xs ys : List Event) :
    recvResults (xs ++ ys) = recvResults xs ++ recvResults ys := by
  induction xs with
  | nil => rfl
  | cons e es ih => cases e <;> simp [recvResults, ih]

/-! ## Machine integers -/

theorem toSizeT_of_le (n : Nat) (h : n ≤ SIZE_MAX) : toSizeT n = n := by
  unfold toSizeT
  exact Nat.mod_eq_of_lt (Nat.lt_succ_of_le h)

theorem toSizeT_le (n : Nat) : toSizeT n ≤ n := Nat.mod_le _ _

@[simp] theorem toInt32_zero : toInt32 0 = 0 := by decide

@[simp] theorem toInt32_natCast_zero : toInt32 ((0 : Nat) : Int) = 0 := by decide

theorem toSizeT_toSizeT_add (a b : Nat) : toSizeT (toSizeT a + b) = toSizeT (a + b) := by
  unfold toSizeT
  rw [Nat.add_mod, Nat.mod_mod, ← Nat.add_mod]

theorem toSizeT_le_max (n : Nat) : toSizeT n ≤ SIZE_MAX := by
  unfold toSizeT
  exact Nat.le_of_lt_succ (Nat.mod_lt _ (Nat.succ_pos _))

theorem toInt32_of_lt (n : Nat) (h : n < 2 ^ 31) : toInt32 (n : Int) = (n : Int) := by
  unfold toInt32
  omega

theorem toInt32_toSizeT_of_lt (n : Nat) (h : n < 2 ^ 31) :
    toInt32 ((toSizeT n : Nat) : Int) = (n : Int) := by
  have hmax : n ≤ SIZE_MAX := by
    unfold SIZE_MAX
    omega
  rw [toSizeT_of_le n hmax, toInt32_of_lt n h]

theorem lt_two_pow_le_SIZE_MAX (n : Nat) (h : n < 2 ^ 31) : n ≤ SIZE_MAX := by
  unfold SIZE_MAX
  omega

/-! ## The sender's loop -/

theorem sendChunks_nil (c : SecureMessageCreator) (rest : List Byte) (s : Nat) :
    sendChunks c [] rest s = Run.step (sendSecureMsg c (rest.take BUFF_SIZE)) Run.blocked := by
  rw [sendChunks]

theorem sendChunks_ack_full (c : SecureMessageCreator) (r : Received) (inc : List Received)
    (rest : List Byte) (s : Nat) (hr : isAck c r) (hfull : BUFF_SIZE ≤ rest.length) :
    sendChunks c (r :: inc) rest s =
      Run.step (sendSecureMsg c (rest.take BUFF_SIZE))
        (Run.step (Event.recvMsg r)
          (sendChunks c inc (rest.drop BUFF_SIZE) (toSizeT (s + BUFF_SIZE)))) := by
  obtain ⟨p, hv, hok⟩ := hr
  have hp : p ≠ [] := cString_ne_nil_of_eq_strOK hok
  have hlen : 0 < p.length := List.length_pos.mpr hp
  rw [sendChunks]
  have h1 : ¬ ((p.length : Int) = 0) := by omega
  have h2 : ¬ ((p.length : Int) < 0) := by omega
  have h3 : ¬ (rest.length < BUFF_SIZE) := by omega
  have h4 : (List.take BUFF_SIZE rest).length = BUFF_SIZE := by
    rw [List.length_take]; omega
  simp [recvSecureMsg_verifies c r [] p hv, h1, h2, h3, h4, hok]

theorem sendChunks_ack_last (c : SecureMessageCreator) (r : Received) (inc : List Received)
    (rest : List Byte) (s : Nat) (hr : isAck c r) (hlast : rest.length < BUFF_SIZE) :
    sendChunks c (r :: inc) rest s =
      ⟨[sendSecureMsg c rest, Event.recvMsg r],
        some (toInt32 ((toSizeT (s + rest.length) : Nat) : Int))⟩ := by
  obtain ⟨p, hv, hok⟩ := hr
  have hp : p ≠ [] := cString_ne_nil_of_eq_strOK hok
  have hlen : 0 < p.length := List.length_pos.mpr hp
  rw [sendChunks]
  have h1 : ¬ ((p.length : Int) = 0) := by omega
  have h2 : ¬ ((p.length : Int) < 0) := by omega
  have h4 : List.take BUFF_SIZE rest = rest := List.take_of_length_le (by omega)
  simp [recvSecureMsg_verifies c r [] p hv, h1, h2, hlast, h4, hok, Run.step, Run.done]

theorem sendChunks_not_ack (c : SecureMessageCreator) (r : Received) (inc : List Received)
    (rest : List Byte) (s : Nat) :
    (peerClosed r ∨ verifies c r [] →
      sendChunks c (r :: inc) rest s =
        ⟨[sendSecureMsg c (rest.take BUFF_SIZE), Event.recvMsg r], some 0⟩) ∧
    (rejected c r →
      sendChunks c (r :: inc) rest s =
        ⟨[sendSecureMsg c (rest.take BUFF_SIZE), Event.recvMsg r], some (-1)⟩) ∧
    (∀ p, verifies c r p → p ≠ [] → cString p ≠ strOK →
      sendChunks c (r :: inc) rest s =
        ⟨[sendSecureMsg c (rest.take BUFF_SIZE), Event.recvMsg r], some (-2)⟩) := by
  refine ⟨?_, ?_, ?_⟩
  · rintro (h | h)
    · rw [sendChunks]
      simp [recvSecureMsg_closed c r [] h, Run.step, Run.done]
    · rw [sendChunks]
      simp [recvSecureMsg_verifies c r [] [] h, Run.step, Run.done]
  · intro h
    rw [sendChunks]
    simp [recvSecureMsg_rejected c r [] h, Run.step, Run.done]
  · intro p hv hp hne
    have hlen : 0 < p.length := List.length_pos.mpr hp
    have h1 : ¬ ((p.length : Int) = 0) := by omega
    have h2 : ¬ ((p.length : Int) < 0) := by omega
    rw [sendChunks]
    simp [recvSecureMsg_verifies c r [] p hv, h1, h2, hne, Run.step, Run.done]

theorem sendChunks_fullRounds (c : SecureMessageCreator) (oks : List Received) :
    ∀ (tail : List Received) (rest : List Byte) (s : Nat),
      (∀ r ∈ oks, isAck c r) → oks.length * BUFF_SIZE ≤ rest.length →
      s + oks.length * BUFF_SIZE ≤ SIZE_MAX →
      sendChunks c (oks ++ tail) rest s =
        Run.after (fullRounds c oks rest)
          (sendChunks c tail (rest.drop (oks.length * BUFF_SIZE)) (s + oks.length * BUFF_SIZE)) := by
  induction oks with
  | nil => intro tail rest s _ _ _; simp [fullRounds]
  | cons r rs ih =>
    intro tail rest s hoks hlen hmax
    have hr : isAck c r := hoks r (List.mem_cons_self _ _)
    have hrs : ∀ x ∈ rs, isAck c x := fun x hx => hoks x (List.mem_cons_of_mem _ hx)
    simp only [List.length_cons, Nat.add_mul, Nat.one_mul] at hlen hmax
    have hfull : BUFF_SIZE ≤ rest.length := by omega
    have hlen' : rs.length * BUFF_SIZE ≤ (rest.drop BUFF_SIZE).length := by
      rw [List.length_drop]; omega
    have hstep : toSizeT (s + BUFF_SIZE) = s + BUFF_SIZE := toSizeT_of_le _ (by omega)
    rw [List.cons_append, sendChunks_ack_full c r (rs ++ tail) rest s hr hfull, hstep,
      ih tail (rest.drop BUFF_SIZE) (s + BUFF_SIZE) hrs hlen' (by omega)]
    simp only [fullRounds, Run.step_after, List.drop_drop, List.length_cons]
    have e1 : BUFF_SIZE + rs.length * BUFF_SIZE = (rs.length + 1) * BUFF_SIZE := by ring
    have e2 : s + BUFF_SIZE + rs.length * BUFF_SIZE = s + (rs.length + 1) * BUFF_SIZE := by ring
    rw [e2]
    rw [e1]

theorem sentMsgs_fullRounds (c : SecureMessageCreator) (oks : List Received) :
    ∀ rest : List Byte, sentMsgs (fullRounds c oks rest) =
      (List.range oks.length).map (fun i => c.EncryptAndSignMessage (chunkAt rest i)) := by
  induction oks with
  | nil => intro rest; rfl
  | cons r rs ih =>
    intro rest
    have h0 : chunkAt rest 0 = rest.take BUFF_SIZE := by
      simp only [chunkAt, Nat.zero_mul, List.drop_zero]
    have hs : ∀ i, chunkAt rest (i + 1) = chunkAt (rest.drop BUFF_SIZE) i := by
      intro i
      have e : BUFF_SIZE + i * BUFF_SIZE = (i + 1) * BUFF_SIZE := by ring
      simp only [chunkAt, List.drop_drop, e]
    simp only [fullRounds, sentMsgs_secure, sentMsgs_recv, ih, List.length_cons,
      List.range_succ_eq_map, List.map_cons, List.map_map, h0, Function.comp_def, Nat.succ_eq_add_one, hs]

theorem recvResults_fullRounds (c : SecureMessageCreator) (oks : List Received) :
    ∀ rest : List Byte, recvResults (fullRounds c oks rest) = oks := by
  induction oks with
  | nil => intro rest; rfl
  | cons r rs ih => intro rest; simp [fullRounds, ih]

/-! ## The receivers' loops -/

@[simp] theorem written_nil : written [] = [] := rfl

@[simp] theorem written_send (m : List Byte) (es : List Event) :
    written (Event.sendMsg m :: es) = written es := rfl

@[simp] theorem written_secure (c : SecureMessageCreator) (p : List Byte) (es : List Event) :
    written (sendSecureMsg c p :: es) = written es := rfl

@[simp] theorem written_recv (r : Received) (es : List Event) :
    written (Event.recvMsg r :: es) = written es := rfl

@[simp] theorem written_open (f : String) (o : Bool) (es : List Event) :
    written (Event.fileOpen f o :: es) = written es := rfl

@[simp] theorem written_write (b : List Byte) (es : List Event) :
    written (Event.fileWrite b :: es) = b ++ written es := rfl

@[simp] theorem written_display (b : List Byte) (es : List Event) :
    written (Event.display b :: es) = written es := rfl

theorem written_append (xs ys : List Event) : written (xs ++ ys) = written xs ++ written ys := by
  induction xs with
  | nil => rfl
  | cons e es ih => cases e <;> simp [written, ih]

@[simp] theorem displayed_nil : displayed [] = [] := rfl

@[simp] theorem displayed_send (m : List Byte) (es : List Event) :
    displayed (Event.sendMsg m :: es) = displayed es := rfl

@[simp] theorem displayed_secure (c : SecureMessageCreator) (p : List Byte) (es : List Event) :
    displayed (sendSecureMsg c p :: es) = displayed es := rfl

@[simp] theorem displayed_recv (r : Received) (es : List Event) :
    displayed (Event.recvMsg r :: es) = displayed es := rfl

@[simp] theorem displayed_open (f : String) (o : Bool) (es : List Event) :
    displayed (Event.fileOpen f o :: es) = displayed es := rfl

@[simp] theorem displayed_write (b : List Byte) (es : List Event) :
    displayed (Event.fileWrite b :: es) = displayed es := rfl

@[simp] theorem displayed_display (b : List Byte) (es : List Event) :
    displayed (Event.display b :: es) = b ++ displayed es := rfl

theorem displayed_append (xs ys : List Event) :
    displayed (xs ++ ys) = displayed xs ++ displayed ys := by
  induction xs with
  | nil => rfl
  | cons e es ih => cases e <;> simp [displayed, ih]

@[simp] theorem totalLength_nil : totalLength [] = 0 := rfl

@[simp] theorem totalLength_cons (p : List Byte) (ps : List (List Byte)) :
    totalLength (p :: ps) = p.length + totalLength ps := by
  simp [totalLength]

theorem receiveChunks_done (c : SecureMessageCreator) (inc : List Received) (n w : Nat)
    (h : n ≤ w) : receiveChunks c inc n w = Run.done (toInt32 (w : Int)) := by
  have h' : ¬ w < n := by omega
  rw [receiveChunks.eq_def]
  simp [h']

theorem receiveChunks_blocked (c : SecureMessageCreator) (n w : Nat) (h : w < n) :
    receiveChunks c [] n w = Run.blocked := by
  rw [receiveChunks]
  simp [h]

theorem receiveChunks_valid (c : SecureMessageCreator) (r : Received) (inc : List Received)
    (n w : Nat) (p : List Byte) (h : w < n) (hv : verifies c r p) (hp : p ≠ []) :
    receiveChunks c (r :: inc) n w =
      Run.after [Event.recvMsg r, sendSecureMsg c ackOK, Event.fileWrite p]
        (receiveChunks c inc n (toSizeT (w + p.length))) := by
  have hlen : 0 < p.length := List.length_pos.mpr hp
  have h1 : ¬ ((p.length : Int) = 0) := by omega
  have h2 : ¬ ((p.length : Int) < 0) := by omega
  rw [receiveChunks]
  simp [h, recvSecureMsg_verifies c r [] p hv, h1, h2, Run.step, Run.after]

theorem receiveChunks_closed (c : SecureMessageCreator) (r : Received) (inc : List Received)
    (n w : Nat) (h : w < n) (hr : peerClosed r ∨ verifies c r []) :
    receiveChunks c (r :: inc) n w = ⟨[Event.recvMsg r], some (-1)⟩ := by
  rw [receiveChunks]
  rcases hr with hr | hr
  · simp [h, recvSecureMsg_closed c r [] hr, Run.step, Run.done]
  · simp [h, recvSecureMsg_verifies c r [] [] hr, Run.step, Run.done]

theorem receiveChunks_rejected (c : SecureMessageCreator) (r : Received) (inc : List Received)
    (n w : Nat) (h : w < n) (hr : rejected c r) :
    receiveChunks c (r :: inc) n w =
      ⟨[Event.recvMsg r, sendSecureMsg c ackError], some (-2)⟩ := by
  rw [receiveChunks]
  simp [h, recvSecureMsg_rejected c r [] hr, Run.step, Run.done]

theorem printChunks_valid (c : SecureMessageCreator) (r : Received) (inc : List Received)
    (n w : Nat) (p : List Byte) (h : w < n) (hv : verifies c r p) (hp : p ≠ []) :
    printChunks c (r :: inc) n w =
      Run.after [Event.recvMsg r, sendSecureMsg c ackOK, Event.display (cString p)]
        (printChunks c inc n (toSizeT (w + p.length))) := by
  have hlen : 0 < p.length := List.length_pos.mpr hp
  have h1 : ¬ ((p.length : Int) = 0) := by omega
  have h2 : ¬ ((p.length : Int) < 0) := by omega
  rw [printChunks]
  simp [h, recvSecureMsg_verifies c r [] p hv, h1, h2, Run.step, Run.after]

theorem printChunks_rejected (c : SecureMessageCreator) (r : Received) (inc : List Received)
    (n w : Nat) (h : w < n) (hr : rejected c r) :
    printChunks c (r :: inc) n w =
      ⟨[Event.recvMsg r, sendSecureMsg c ackError], some (-2)⟩ := by
  rw [printChunks]
  simp [h, recvSecureMsg_rejected c r [] hr, Run.step, Run.done]

theorem Run.after_after (xs ys : List Event) (r : Run) :
    Run.after xs (Run.after ys r) = Run.after (xs ++ ys) r := by
  simp [Run.after, List.append_assoc]

/-- The loop of `receiveFile` over valid non-empty chunks, as long as the
counter stays below the declared size before each of them. -/
theorem receiveChunks_storeRounds (c : SecureMessageCreator) (n : Nat) :
    ∀ (rs : List Received) (ps : List (List Byte)) (tail : List Received) (w : Nat),
      List.Forall₂ (verifies c) rs ps → (∀ p ∈ ps, p ≠ []) →
      (ps ≠ [] → w + totalLength ps.dropLast < n) → w ≤ SIZE_MAX →
      receiveChunks c (rs ++ tail) n w =
        Run.after (storeRounds c rs ps) (receiveChunks c tail n (toSizeT (w + totalLength ps))) := by
  intro rs ps tail w hf
  induction hf generalizing w with
  | nil =>
    intro _ _ hmax
    simp [storeRounds, toSizeT_of_le w hmax]
  | @cons r p rs ps hv _ ih =>
    intro hne hlt hmax
    have hp : p ≠ [] := hne p (List.mem_cons_self _ _)
    have hps : ∀ q ∈ ps, q ≠ [] := fun q hq => hne q (List.mem_cons_of_mem _ hq)
    have hw : w < n := by
      have := hlt (List.cons_ne_nil _ _)
      cases ps with
      | nil => simpa using this
      | cons q qs =>
        simp only [List.dropLast_cons₂, totalLength_cons] at this
        omega
    have hstep : toSizeT (w + p.length) ≤ w + p.length := toSizeT_le _
    have hlt' : ps ≠ [] → toSizeT (w + p.length) + totalLength ps.dropLast < n := by
      intro hps'
      have := hlt (List.cons_ne_nil _ _)
      cases ps with
      | nil => exact absurd rfl hps'
      | cons q qs =>
        simp only [List.dropLast_cons₂, totalLength_cons] at this
        omega
    rw [List.cons_append, receiveChunks_valid c r (rs ++ tail) n w p hw hv hp,
      ih (toSizeT (w + p.length)) hps hlt' (toSizeT_le_max _), Run.after_after,
      toSizeT_toSizeT_add]
    simp [storeRounds, Nat.add_assoc]

theorem printChunks_showRounds (c : SecureMessageCreator) (n : Nat) :
    ∀ (rs : List Received) (ps : List (List Byte)) (tail : List Received) (w : Nat),
      List.Forall₂ (verifies c) rs ps → (∀ p ∈ ps, p ≠ []) →
      (ps ≠ [] → w + totalLength ps.dropLast < n) → w ≤ SIZE_MAX →
      printChunks c (rs ++ tail) n w =
        Run.after (showRounds c rs ps) (printChunks c tail n (toSizeT (w + totalLength ps))) := by
  intro rs ps tail w hf
  induction hf generalizing w with
  | nil =>
    intro _ _ hmax
    simp [showRounds, toSizeT_of_le w hmax]
  | @cons r p rs ps hv _ ih =>
    intro hne hlt hmax
    have hp : p ≠ [] := hne p (List.mem_cons_self _ _)
    have hps : ∀ q ∈ ps, q ≠ [] := fun q hq => hne q (List.mem_cons_of_mem _ hq)
    have hw : w < n := by
      have := hlt (List.cons_ne_nil _ _)
      cases ps with
      | nil => simpa using this
      | cons q qs =>
        simp only [List.dropLast_cons₂, totalLength_cons] at this
        omega
    have hstep : toSizeT (w + p.length) ≤ w + p.length := toSizeT_le _
    have hlt' : ps ≠ [] → toSizeT (w + p.length) + totalLength ps.dropLast < n := by
      intro hps'
      have := hlt (List.cons_ne_nil _ _)
      cases ps with
      | nil => exact absurd rfl hps'
      | cons q qs =>
        simp only [List.dropLast_cons₂, totalLength_cons] at this
        omega
    rw [List.cons_append, printChunks_valid c r (rs ++ tail) n w p hw hv hp,
      ih (toSizeT (w + p.length)) hps hlt' (toSizeT_le_max _), Run.after_after,
      toSizeT_toSizeT_add]
    simp [showRounds, Nat.add_assoc]

theorem sentMsgs_storeRounds (c : SecureMessageCreator) (rs : List Received)
    (ps : List (List Byte)) (hf : List.Forall₂ (verifies c) rs ps) :
    sentMsgs (storeRounds c rs ps) = List.replicate ps.length (c.EncryptAndSignMessage ackOK) := by
  induction hf with
  | nil => rfl
  | cons _ _ ih => simp [storeRounds, ih, List.replicate_succ]

theorem recvResults_storeRounds (c : SecureMessageCreator) (rs : List Received)
    (ps : List (List Byte)) (hf : List.Forall₂ (verifies c) rs ps) :
    recvResults (storeRounds c rs ps) = rs := by
  induction hf with
  | nil => rfl
  | cons _ _ ih => simp [storeRounds, ih]

theorem written_storeRounds (c : SecureMessageCreator) (rs : List Received)
    (ps : List (List Byte)) (hf : List.Forall₂ (verifies c) rs ps) :
    written (storeRounds c rs ps) = ps.flatten := by
  induction hf with
  | nil => rfl
  | cons _ _ ih => simp [storeRounds, ih]

theorem sentMsgs_showRounds (c : SecureMessageCreator) (rs : List Received)
    (ps : List (List Byte)) (hf : List.Forall₂ (verifies c) rs ps) :
    sentMsgs (showRounds c rs ps) = List.replicate ps.length (c.EncryptAndSignMessage ackOK) := by
  induction hf with
  | nil => rfl
  | cons _ _ ih => simp [showRounds, ih, List.replicate_succ]

theorem recvResults_showRounds (c : SecureMessageCreator) (rs : List Received)
    (ps : List (List Byte)) (hf : List.Forall₂ (verifies c) rs ps) :
    recvResults (showRounds c rs ps) = rs := by
  induction hf with
  | nil => rfl
  | cons _ _ ih => simp [showRounds, ih]

theorem displayed_showRounds (c : SecureMessageCreator) (rs : List Received)
    (ps : List (List Byte)) (hf : List.Forall₂ (verifies c) rs ps) :
    displayed (showRounds c rs ps) = (ps.map cString).flatten := by
  induction hf with
  | nil => rfl
  | cons _ _ ih => simp [showRounds, ih]

theorem written_showRounds (c : SecureMessageCreator) (rs : List Received)
    (ps : List (List Byte)) : written (showRounds c rs ps) = [] := by
  induction rs generalizing ps with
  | nil => cases ps <;> rfl
  | cons r rs ih =>
    cases ps with
    | nil => rfl
    | cons p ps => simp [showRounds, ih]

theorem receiveFile_announced (c : SecureMessageCreator) (canOpen : String → Bool)
    (filename : String) (writer₀ : List Byte) (fileSize₀ : Nat) (r : Received) (inc : List Received)
    (a : List Byte) (hv : verifies c r a) (hopen : canOpen filename = true) :
    receiveFile c canOpen filename writer₀ fileSize₀ (r :: inc) =
      Run.after [Event.recvMsg r, Event.fileOpen filename true]
        (receiveChunks c inc (extractSize (cString a) fileSize₀) 0) := by
  have h : ¬ ((a.length : Int) < 0) := by omega
  simp [receiveFile, recvSecureMsg_verifies c r writer₀ a hv, h, hopen, Run.step, Run.after]

theorem reciveAndPrintBigMessage_announced (c : SecureMessageCreator)
    (writer₀ : List Byte) (fileSize₀ : Nat) (r : Received) (inc : List Received)
    (a : List Byte) (hv : verifies c r a) :
    reciveAndPrintBigMessage c writer₀ fileSize₀ (r :: inc) =
      Run.after [Event.recvMsg r] (printChunks c inc (extractSize (cString a) fileSize₀) 0) := by
  have h : ¬ ((a.length : Int) < 0) := by omega
  simp [reciveAndPrintBigMessage, recvSecureMsg_verifies c r writer₀ a hv, h, Run.step, Run.after]

/-- In a run of the loop of `receiveFile` that counts fewer than `2 ^ 31`
bytes, a returned value is -1, -2, or the counter after the bytes written,
which has reached the declared size. -/
theorem receiveChunks_ret (c : SecureMessageCreator) (n : Nat) (inc : List Received) :
    ∀ (w : Nat) (v : Int),
      w + (written (receiveChunks c inc n w).trace).length < 2 ^ 31 →
      (receiveChunks c inc n w).ret = some v →
      v = -1 ∨ v = -2 ∨
        (v = ((w + (written (receiveChunks c inc n w).trace).length : Nat) : Int) ∧
          (n : Int) ≤ v) := by
  induction inc with
  | nil =>
    intro w v hb h
    by_cases hw : w < n
    · rw [receiveChunks_blocked c n w hw] at h
      cases h
    · rw [receiveChunks_done c [] n w (by omega)] at h hb ⊢
      simp only [Run.ret_done, Option.some.injEq, Run.trace_done, written_nil,
        List.length_nil, Nat.add_zero] at h hb ⊢
      rw [toInt32_of_lt w hb] at h
      omega
  | cons r inc ih =>
    intro w v hb h
    by_cases hw : w < n
    · by_cases h0 : peerClosed r
      · rw [receiveChunks_closed c r inc n w hw (Or.inl h0)] at h
        simp only [Option.some.injEq] at h
        omega
      · cases hd : c.DecryptAndCheckSign r.buffer r.numberOfBytes with
        | none =>
          rw [receiveChunks_rejected c r inc n w hw ⟨h0, hd⟩] at h
          simp only [Option.some.injEq] at h
          omega
        | some p =>
          by_cases hp : p = []
          · subst hp
            rw [receiveChunks_closed c r inc n w hw (Or.inr ⟨h0, hd⟩)] at h
            simp only [Option.some.injEq] at h
            omega
          · rw [receiveChunks_valid c r inc n w p hw ⟨h0, hd⟩ hp] at h hb ⊢
            simp only [Run.trace_after, Run.ret_after, List.cons_append, List.nil_append,
              written_recv, written_secure, written_write, List.length_append] at h hb ⊢
            have hstep : toSizeT (w + p.length) = w + p.length :=
              toSizeT_of_le _ (lt_two_pow_le_SIZE_MAX _ (by omega))
            rw [hstep] at h hb ⊢
            rcases ih (w + p.length) v (by omega) h with h1 | h1 | ⟨h1, h2⟩
            · exact Or.inl h1
            · exact Or.inr (Or.inl h1)
            · refine Or.inr (Or.inr ⟨?_, h2⟩)
              rw [h1]
              omega
    · rw [receiveChunks_done c (r :: inc) n w (by omega)] at h hb ⊢
      simp only [Run.ret_done, Option.some.injEq, Run.trace_done, written_nil,
        List.length_nil, Nat.add_zero] at h hb ⊢
      rw [toInt32_of_lt w hb] at h
      omega

/-- After a verified size announcement and with a destination that opens: a
run of `receiveFile` that writes fewer than `2 ^ 31` bytes returns -1, -2, or
the number of bytes written, which has then reached the declared size. -/
theorem receiveFile_ret (c : SecureMessageCreator) (canOpen : String → Bool)
    (filename : String) (writer₀ : List Byte) (fileSize₀ : Nat) (r₀ : Received) (a : List Byte)
    (hv : verifies c r₀ a) (hopen : canOpen filename = true) (inc : List Received) (v : Int)
    (hb : (written (receiveFile c canOpen filename writer₀ fileSize₀ (r₀ :: inc)).trace).length <
      2 ^ 31)
    (h : (receiveFile c canOpen filename writer₀ fileSize₀ (r₀ :: inc)).ret = some v) :
    v = -1 ∨ v = -2 ∨
      (v = ((written (receiveFile c canOpen filename writer₀ fileSize₀
          (r₀ :: inc)).trace).length : Int) ∧
        (extractSize (cString a) fileSize₀ : Int) ≤ v) := by
  rw [receiveFile_announced c canOpen filename writer₀ fileSize₀ r₀ _ a hv hopen] at h hb ⊢
  simp only [Run.trace_after, Run.ret_after, List.cons_append, List.nil_append, written_recv,
    written_open] at h hb ⊢
  have := receiveChunks_ret c (extractSize (cString a) fileSize₀) inc 0 v (by omega) h
  simpa using this

theorem tagCrypto_inverts : inverts tagCrypto := by
  intro p
  refine ⟨by simp [tagCrypto], ?_⟩
  simp [tagCrypto]

theorem verifies_delivered (c : SecureMessageCreator) (hc : inverts c) (p : List Byte) :
    verifies c ⟨((c.EncryptAndSignMessage p).length : Int), c.EncryptAndSignMessage p⟩ p := by
  obtain ⟨hne, hd⟩ := hc p
  refine ⟨?_, hd⟩
  have : 0 < (c.EncryptAndSignMessage p).length := List.length_pos.mpr hne
  show ((c.EncryptAndSignMessage p).length : Int) ≠ 0
  omega

theorem isAck_demoAck : isAck tagCrypto demoAck :=
  ⟨ackOK, ⟨by decide, by decide⟩, by decide⟩

theorem isAck_of_verifies_ackOK {c : SecureMessageCreator} {r : Received}
    (h : verifies c r ackOK) : isAck c r :=
  ⟨ackOK, h, by decide⟩

theorem to_string_natCast_ne_neg (n : Nat) :
    to_string (n : Int) = natDigits (n + 1) n := by
  simp [to_string]

theorem sendFile_some (c : SecureMessageCreator) (b : List Byte) (stars : Bool)
    (incoming : List Received) (hb : b ≠ []) (hsz : b.length < 2 ^ 31) :
    sendFile c (some b) stars incoming =
      Run.step (sendSecureMsg c (to_string (b.length : Int))) (sendChunks c incoming b 0) := by
  have h : ¬ ((b.length : Int) = 0) := by
    have := List.length_pos.mpr hb
    omega
  simp [sendFile, toInt32_of_lt b.length hsz, h]

theorem verifies_unique {c : SecureMessageCreator} {r : Received} {p q : List Byte}
    (hp : verifies c r p) (hq : verifies c r q) : p = q := by
  have h := hp.2
  rw [hq.2] at h
  exact (Option.some.inj h).symm

theorem not_rejected_of_verifies {c : SecureMessageCreator} {r : Received} {p : List Byte}
    (hp : verifies c r p) : ¬ rejected c r := by
  intro hr
  have h := hp.2
  rw [hr.2] at h
  cases h

theorem not_peerClosed_of_verifies {c : SecureMessageCreator} {r : Received} {p : List Byte}
    (hp : verifies c r p) : ¬ peerClosed r := hp.1

theorem not_peerClosed_of_rejected {c : SecureMessageCreator} {r : Received}
    (hr : rejected c r) : ¬ peerClosed r := hr.1

theorem not_isAck_cases (c : SecureMessageCreator) (r : Received) (h : ¬ isAck c r) :
    (peerClosed r ∨ verifies c r []) ∨ rejected c r ∨
      ∃ p, verifies c r p ∧ p ≠ [] ∧ cString p ≠ strOK := by
  by_cases h0 : r.numberOfBytes = 0
  · exact Or.inl (Or.inl h0)
  · cases hd : c.DecryptAndCheckSign r.buffer r.numberOfBytes with
    | none => exact Or.inr (Or.inl ⟨h0, hd⟩)
    | some p =>
      by_cases hp : p = []
      · subst hp
        exact Or.inl (Or.inr ⟨h0, hd⟩)
      · refine Or.inr (Or.inr ⟨p, ⟨h0, hd⟩, hp, ?_⟩)
        intro hok
        exact h ⟨p, ⟨h0, hd⟩, hok⟩

theorem totalLength_dropLast_le (ps : List (List Byte)) :
    totalLength ps.dropLast ≤ totalLength ps := by
  induction ps with
  | nil => simp
  | cons p ps ih =>
    cases ps with
    | nil => simp
    | cons q qs =>
      simp only [List.dropLast_cons₂, totalLength_cons] at ih ⊢
      omega

theorem chunkAt_length (b : List Byte) (i : Nat) :
    (chunkAt b i).length = min BUFF_SIZE (b.length - i * BUFF_SIZE) := by
  simp [chunkAt, List.length_take, List.length_drop]

theorem flatten_chunkAt (b : List Byte) (m : Nat) :
    ((List.range m).map (chunkAt b)).flatten = b.take (m * BUFF_SIZE) := by
  induction m with
  | zero => simp
  | succ m ih =>
    rw [List.range_succ, List.map_append, List.flatten_append, ih]
    have e : (m + 1) * BUFF_SIZE = m * BUFF_SIZE + BUFF_SIZE := by ring
    rw [e, List.take_add]
    simp [chunkAt]

theorem digitsValue_append_singleton (ds : List Byte) (d : Byte) :
    digitsValue (ds ++ [d]) = digitsValue ds * 10 + (d.val - 48) := by
  simp [digitsValue, List.foldl_append]

theorem isDigit_digitChar (n : Nat) : isDigit (digitChar n) = true := by
  have h : n % 10 < 10 := Nat.mod_lt _ (by decide)
  simp [isDigit, digitChar]
  omega

theorem natDigits_spec (fuel : Nat) :
    ∀ n, n < fuel →
      natDigits fuel n ≠ [] ∧ (∀ d ∈ natDigits fuel n, isDigit d = true) ∧
        digitsValue (natDigits fuel n) = n := by
  induction fuel with
  | zero => intro n h; omega
  | succ fuel ih =>
    intro n h
    by_cases h10 : n < 10
    · have e : natDigits (fuel + 1) n = [digitChar n] := by simp [natDigits, h10]
      rw [e]
      refine ⟨by simp, ?_, ?_⟩
      · intro d hd
        rw [List.mem_singleton] at hd
        rw [hd]
        exact isDigit_digitChar n
      · simp [digitsValue, digitChar, Nat.mod_eq_of_lt h10]
    · have e : natDigits (fuel + 1) n = natDigits fuel (n / 10) ++ [digitChar n] := by
        simp [natDigits, h10]
      have hdiv : n / 10 < fuel := by omega
      obtain ⟨_, hdig, hval⟩ := ih (n / 10) hdiv
      rw [e]
      refine ⟨by simp, ?_, ?_⟩
      · intro d hd
        rw [List.mem_append, List.mem_singleton] at hd
        rcases hd with hd | hd
        · exact hdig d hd
        · rw [hd]
          exact isDigit_digitChar n
      · rw [digitsValue_append_singleton, hval]
        simp only [digitChar, Nat.add_sub_cancel_left]
        omega

theorem extractSize_of_digits (ds : List Byte) (f : Nat) (hne : ds ≠ [])
    (hdig : ∀ d ∈ ds, isDigit d = true) (hmax : digitsValue ds ≤ SIZE_MAX) :
    extractSize (cString ds) f = digitsValue ds := by
  have hnz : ∀ d ∈ ds, (d != 0) = true := by
    intro d hd
    have := hdig d hd
    simp only [isDigit, Bool.and_eq_true, decide_eq_true_eq] at this
    have hv : d.val ≠ 0 := by omega
    simp only [bne_iff_ne, ne_eq]
    intro h0
    exact hv (by rw [h0]; rfl)
  have hc : cString ds = ds := by
    unfold cString
    exact List.takeWhile_eq_self_iff.mpr hnz
  rw [hc]
  cases ds with
  | nil => exact absurd rfl hne
  | cons d t =>
    have hd := hdig d (List.mem_cons_self _ _)
    have hd2 := hd
    simp only [isDigit, Bool.and_eq_true, decide_eq_true_eq] at hd2
    have hsp : isSpace d = false := by
      simp only [isSpace, Bool.or_eq_false_iff, beq_eq_false_iff_ne, ne_eq,
        Bool.and_eq_false_iff, decide_eq_false_iff_not]
      omega
    have h45 : ¬ d = 45 := by
      intro h
      rw [h] at hd2
      exact absurd hd2.1 (by decide)
    have h43 : ¬ d = 43 := by
      intro h
      rw [h] at hd2
      exact absurd hd2.1 (by decide)
    have htw : List.takeWhile isDigit (d :: t) = d :: t :=
      List.takeWhile_eq_self_iff.mpr hdig
    have hmax2 : ¬ SIZE_MAX < digitsValue (d :: t) := by omega
    unfold extractSize
    simp only [List.dropWhile_cons, hsp]
    simp [h45, h43, htw, hmax2]

theorem extractSize_to_string (n : Nat) (f : Nat) (h : n ≤ SIZE_MAX) :
    extractSize (cString (to_string (n : Int))) f = n := by
  obtain ⟨hne, hdig, hval⟩ := natDigits_spec (n + 1) n (Nat.lt_succ_self n)
  rw [to_string_natCast_ne_neg, extractSize_of_digits _ f hne hdig (by rw [hval]; exact h), hval]

/-! ## C1: the outcomes of `recvSecureMsg` -/

/-- C1 (as amended): `recvSecureMsg` returns 0 when the transport reported
zero bytes (the caller's plaintext variable is then left untouched) and also
when the verified plaintext is empty, returns -1 exactly when
`DecryptAndCheckSign` rejected the envelope, and otherwise returns the verified
plaintext together with its length. -/
theorem recvSecureMsg_outcomes (c : SecureMessageCreator) (r : Received) (pt : List Byte) :
    ((recvSecureMsg c r pt).1 = 0 ↔ peerClosed r ∨ verifies c r []) ∧
    ((recvSecureMsg c r pt).1 = -1 ↔ rejected c r) ∧
    (peerClosed r → (recvSecureMsg c r pt).2 = pt) ∧
    (∀ p, verifies c r p → recvSecureMsg c r pt = ((p.length : Int), p)) := by
  unfold peerClosed verifies rejected recvSecureMsg
  by_cases h0 : r.numberOfBytes = 0
  · simp [h0]
  · cases hd : c.DecryptAndCheckSign r.buffer r.numberOfBytes with
    | none => simp [h0]
    | some q =>
      have hq : ((q.length : Int) = -1) = False := by
        apply eq_false
        omega
      have hz : ((q.length : Int) = 0) = (q = []) := by
        apply propext
        rw [← List.length_eq_zero]
        omega
      simp [h0, hq, hz, eq_comm]

/-- C1 (witness): a delivered acknowledgment is returned with its length 3. -/
theorem recvSecureMsg_outcomes_witness :
    verifies tagCrypto demoAck ackOK ∧
    recvSecureMsg tagCrypto demoAck [] = ((ackOK.length : Int), ackOK) :=
  ⟨⟨by decide, by decide⟩,
    (recvSecureMsg_outcomes tagCrypto demoAck []).2.2.2 ackOK ⟨by decide, by decide⟩⟩

/-- C1 (counterexample to the claim as stated): the transport reports one
byte, the envelope verifies to the empty plaintext, and `recvSecureMsg`
returns 0 although the transport did not report zero bytes; the result is the
very pair returned when the peer closed. -/
theorem recvSecureMsg_empty_plaintext_returns_zero :
    verifies tagCrypto ⟨1, [90]⟩ [] ∧
    ¬ ((recvSecureMsg tagCrypto ⟨1, [90]⟩ []).1 = 0 ↔ peerClosed ⟨1, [90]⟩) ∧
    recvSecureMsg tagCrypto ⟨1, [90]⟩ [] = recvSecureMsg tagCrypto ⟨0, []⟩ [] := by
  refine ⟨⟨by decide, by decide⟩, ?_, by decide⟩
  unfold peerClosed
  decide

/-! ## C2: transfer fidelity -/

/-- C2 (the code at a failing input): for a file of exactly `BUFF_SIZE`
bytes, a capability that inverts itself and a destination that opens, the
joint run settles from the second round on.  `receiveFile` has written
exactly the file and returned its length, after sending a single
acknowledgment; `sendFile` has sent the size, the file as one chunk, and then
an empty chunk, and waits for an acknowledgment that `receiveFile` never
sends: it does not return. -/
theorem exchange_full_buffer (c : SecureMessageCreator) (b : List Byte) (stars : Bool)
    (canOpen : String → Bool) (filename : String) (writer₀ : List Byte) (fileSize₀ : Nat)
    (k : Nat)
    (hc : inverts c) (hb : b.length = BUFF_SIZE) (hopen : canOpen filename = true) :
    exchange c b stars canOpen filename writer₀ fileSize₀ (k + 2) =
      (⟨[sendSecureMsg c [52, 48, 57, 54], sendSecureMsg c b,
          Event.recvMsg ⟨((c.EncryptAndSignMessage ackOK).length : Int),
            c.EncryptAndSignMessage ackOK⟩,
          sendSecureMsg c []], none⟩,
       ⟨[Event.recvMsg ⟨((c.EncryptAndSignMessage [52, 48, 57, 54]).length : Int),
            c.EncryptAndSignMessage [52, 48, 57, 54]⟩,
          Event.fileOpen filename true,
          Event.recvMsg ⟨((c.EncryptAndSignMessage b).length : Int), c.EncryptAndSignMessage b⟩,
          sendSecureMsg c ackOK, Event.fileWrite b], some (b.length : Int)⟩) := by
  have hbne : b ≠ [] := by
    apply List.ne_nil_of_length_pos
    rw [hb]
    decide
  have hts : to_string ((b.length : Nat) : Int) = [52, 48, 57, 54] := by
    rw [hb]
    decide
  have htake : b.take BUFF_SIZE = b := List.take_of_length_le (by omega)
  have hdrop : b.drop BUFF_SIZE = [] := List.drop_eq_nil_of_le (by omega)
  have hsize : extractSize (cString [52, 48, 57, 54]) fileSize₀ = BUFF_SIZE := rfl
  have hsz : b.length < 2 ^ 31 := by
    rw [hb]
    decide
  have hstep : toSizeT (0 + b.length) = b.length := by
    rw [Nat.zero_add]
    exact toSizeT_of_le _ (lt_two_pow_le_SIZE_MAX _ hsz)
  -- the sender before any acknowledgment
  have hS0 : sendFile c (some b) stars [] =
      ⟨[sendSecureMsg c [52, 48, 57, 54], sendSecureMsg c b], none⟩ := by
    rw [sendFile_some c b stars _ hbne hsz, hts, sendChunks_nil, htake]
    rfl
  -- the sender after the acknowledgment of its only full chunk
  have hS : sendFile c (some b) stars (deliver [c.EncryptAndSignMessage ackOK]) =
      ⟨[sendSecureMsg c [52, 48, 57, 54], sendSecureMsg c b,
          Event.recvMsg ⟨((c.EncryptAndSignMessage ackOK).length : Int),
            c.EncryptAndSignMessage ackOK⟩,
          sendSecureMsg c []], none⟩ := by
    have hack : isAck c ⟨((c.EncryptAndSignMessage ackOK).length : Int),
        c.EncryptAndSignMessage ackOK⟩ :=
      isAck_of_verifies_ackOK (verifies_delivered c hc ackOK)
    rw [sendFile_some c b stars _ hbne hsz, hts]
    show Run.step _ (sendChunks c (_ :: []) b 0) = _
    rw [sendChunks_ack_full c _ [] b 0 hack (by omega), sendChunks_nil, htake, hdrop]
    rfl
  -- the receiver once the size and the chunk have been delivered
  have hR : ∀ tail : List (List Byte),
      receiveFile c canOpen filename writer₀ fileSize₀
          (deliver (c.EncryptAndSignMessage [52, 48, 57, 54] :: c.EncryptAndSignMessage b :: tail)) =
        ⟨[Event.recvMsg ⟨((c.EncryptAndSignMessage [52, 48, 57, 54]).length : Int),
            c.EncryptAndSignMessage [52, 48, 57, 54]⟩,
          Event.fileOpen filename true,
          Event.recvMsg ⟨((c.EncryptAndSignMessage b).length : Int), c.EncryptAndSignMessage b⟩,
          sendSecureMsg c ackOK, Event.fileWrite b], some (b.length : Int)⟩ := by
    intro tail
    show receiveFile c canOpen filename writer₀ fileSize₀ (_ :: _ :: deliver tail) = _
    rw [receiveFile_announced c canOpen filename writer₀ fileSize₀ _ _ _
        (verifies_delivered c hc [52, 48, 57, 54]) hopen, hsize,
      receiveChunks_valid c _ _ BUFF_SIZE 0 b (by decide) (verifies_delivered c hc b) hbne,
      hstep, receiveChunks_done c _ BUFF_SIZE _ (by omega), toInt32_of_lt _ hsz]
    simp [Run.after, Run.done]
  have hR0 : receiveFile c canOpen filename writer₀ fileSize₀ [] = Run.blocked := rfl
  induction k with
  | zero =>
    show (sendFile c (some b) stars (deliver (sentMsgs
            (exchange c b stars canOpen filename writer₀ fileSize₀ 1).2.trace)),
          receiveFile c canOpen filename writer₀ fileSize₀ (deliver (sentMsgs
            (exchange c b stars canOpen filename writer₀ fileSize₀ 1).1.trace))) = _
    have h1 : exchange c b stars canOpen filename writer₀ fileSize₀ 1 =
        (sendFile c (some b) stars (deliver (sentMsgs
            (sendFile c (some b) stars [], receiveFile c canOpen filename writer₀ fileSize₀ []).2.trace)),
          receiveFile c canOpen filename writer₀ fileSize₀ (deliver (sentMsgs
            (sendFile c (some b) stars [], receiveFile c canOpen filename writer₀ fileSize₀ []).1.trace))) :=
      rfl
    rw [h1]
    simp only [hR0, hS0, Run.trace_blocked, sentMsgs_nil, sentMsgs_secure]
    have hd0 : deliver [] = [] := rfl
    rw [hd0, hS0]
    simp only [sentMsgs_secure, sentMsgs_nil]
    rw [hR []]
    simp only [sentMsgs_secure, sentMsgs_nil, sentMsgs_recv, sentMsgs_open, sentMsgs_write]
    rw [hS]
  | succ k ih =>
    show (sendFile c (some b) stars (deliver (sentMsgs
            (exchange c b stars canOpen filename writer₀ fileSize₀ (k + 2)).2.trace)),
          receiveFile c canOpen filename writer₀ fileSize₀ (deliver (sentMsgs
            (exchange c b stars canOpen filename writer₀ fileSize₀ (k + 2)).1.trace))) = _
    rw [ih]
    simp only [sentMsgs_secure, sentMsgs_nil, sentMsgs_recv, sentMsgs_open, sentMsgs_write]
    rw [hS, hR]

/-- C2 (witness): a file of 4096 zero bytes under the demonstration capability. -/
theorem exchange_full_buffer_witness :
    inverts tagCrypto ∧ (zeros 4096).length = BUFF_SIZE ∧
    (exchange tagCrypto (zeros 4096) false (fun _ => true) "upload" [] 0 (0 + 2)).1.ret = none ∧
    (exchange tagCrypto (zeros 4096) false (fun _ => true) "upload" [] 0 (0 + 2)).2.ret =
      some 4096 :=
  have hlen : (zeros 4096).length = BUFF_SIZE := List.length_replicate 4096 (0 : Byte)
  have h := exchange_full_buffer tagCrypto (zeros 4096) false (fun _ => true) "upload" [] 0 0
    tagCrypto_inverts hlen rfl
  ⟨tagCrypto_inverts, hlen, by rw [h], by rw [h, hlen]; rfl⟩

/-! ## C3: the sender's loop and exact multiples of `BUFF_SIZE` -/

/-- C3 (the code at the failing inputs): for a source whose length is a
positive multiple `k * BUFF_SIZE` below `2 ^ 31`, after `k` positive
acknowledgments `sendFile` has sent `k + 1` chunk messages, the last one
empty, and waits for one more acknowledgment; only when that arrives does it
return the length. -/
theorem sendFile_exact_multiple (c : SecureMessageCreator) (b : List Byte) (stars : Bool)
    (k : Nat) (oks : List Received) (r : Received) (more : List Received)
    (hk : 0 < k) (hb : b.length = k * BUFF_SIZE) (hsz : b.length < 2 ^ 31)
    (hlen : oks.length = k) (hoks : ∀ x ∈ oks, isAck c x) (hr : isAck c r) :
    (sendFile c (some b) stars oks).ret = none ∧
    sentMsgs (sendFile c (some b) stars oks).trace =
      c.EncryptAndSignMessage (to_string (b.length : Int)) ::
        ((List.range k).map (fun i => c.EncryptAndSignMessage (chunkAt b i)) ++
          [c.EncryptAndSignMessage []]) ∧
    recvResults (sendFile c (some b) stars oks).trace = oks ∧
    (sendFile c (some b) stars (oks ++ r :: more)).ret = some (b.length : Int) ∧
    sentMsgs (sendFile c (some b) stars (oks ++ r :: more)).trace =
      c.EncryptAndSignMessage (to_string (b.length : Int)) ::
        ((List.range k).map (fun i => c.EncryptAndSignMessage (chunkAt b i)) ++
          [c.EncryptAndSignMessage []]) ∧
    recvResults (sendFile c (some b) stars (oks ++ r :: more)).trace = oks ++ [r] := by
  have hpos : 0 < BUFF_SIZE := by decide
  have hbne : b ≠ [] := by
    apply List.ne_nil_of_length_pos
    rw [hb]
    exact Nat.mul_pos hk hpos
  have hreach : oks.length * BUFF_SIZE ≤ b.length := by rw [hlen, hb]
  have hdrop : b.drop (oks.length * BUFF_SIZE) = [] := by
    apply List.drop_eq_nil_of_le
    rw [hlen, hb]
  have hmax : 0 + oks.length * BUFF_SIZE ≤ SIZE_MAX :=
    lt_two_pow_le_SIZE_MAX _ (by omega)
  have h1 := sendChunks_fullRounds c oks [] b 0 hoks hreach hmax
  have h2 := sendChunks_fullRounds c oks (r :: more) b 0 hoks hreach hmax
  rw [List.append_nil, hdrop, sendChunks_nil] at h1
  rw [hdrop, sendChunks_ack_last c r more [] _ hr (by simpa using hpos),
    toInt32_toSizeT_of_lt _ (by simp only [List.length_nil]; omega)] at h2
  rw [sendFile_some c b stars _ hbne hsz, sendFile_some c b stars _ hbne hsz, h1, h2]
  simp [sentMsgs_append, recvResults_append, sentMsgs_fullRounds, recvResults_fullRounds, hlen, hb]

/-- C3 (witness): a 4096-byte file under the demonstration capability. -/
theorem sendFile_exact_multiple_witness :
    (sendFile tagCrypto (some (zeros 4096)) false [demoAck]).ret = none ∧
    sentMsgs (sendFile tagCrypto (some (zeros 4096)) false [demoAck]).trace =
      tagCrypto.EncryptAndSignMessage (to_string ((zeros 4096).length : Int)) ::
        ((List.range 1).map (fun i => tagCrypto.EncryptAndSignMessage (chunkAt (zeros 4096) i)) ++
          [tagCrypto.EncryptAndSignMessage []]) ∧
    recvResults (sendFile tagCrypto (some (zeros 4096)) false [demoAck]).trace = [demoAck] ∧
    (sendFile tagCrypto (some (zeros 4096)) false ([demoAck] ++ demoAck :: [])).ret =
      some ((zeros 4096).length : Int) ∧
    sentMsgs (sendFile tagCrypto (some (zeros 4096)) false ([demoAck] ++ demoAck :: [])).trace =
      tagCrypto.EncryptAndSignMessage (to_string ((zeros 4096).length : Int)) ::
        ((List.range 1).map (fun i => tagCrypto.EncryptAndSignMessage (chunkAt (zeros 4096) i)) ++
          [tagCrypto.EncryptAndSignMessage []]) ∧
    recvResults (sendFile tagCrypto (some (zeros 4096)) false ([demoAck] ++ demoAck :: [])).trace =
      [demoAck] ++ [demoAck] :=
  sendFile_exact_multiple tagCrypto (zeros 4096) false 1 [demoAck] demoAck []
    (by decide) (List.length_replicate 4096 (0 : Byte))
    (by rw [show (zeros 4096).length = 4096 from List.length_replicate 4096 (0 : Byte)]; decide)
    rfl
    (by intro x hx; rw [List.mem_singleton] at hx; subst hx; exact isAck_demoAck)
    isAck_demoAck

/-- Off the exact multiples the sender's loop ends with the file: for a source
of `k * BUFF_SIZE + rem` bytes, below `2 ^ 31`, with `0 < rem < BUFF_SIZE`, all chunks
acknowledged, `sendFile` sends `k + 1` chunk messages whose concatenation is
the source, consumes `k + 1` acknowledgments and returns the length. -/
theorem sendFile_off_multiple (c : SecureMessageCreator) (b : List Byte) (stars : Bool)
    (k rem : Nat) (oks : List Received) (r : Received) (more : List Received)
    (hrem : 0 < rem) (hlt : rem < BUFF_SIZE) (hb : b.length = k * BUFF_SIZE + rem)
    (hsz : b.length < 2 ^ 31)
    (hlen : oks.length = k) (hoks : ∀ x ∈ oks, isAck c x) (hr : isAck c r) :
    (sendFile c (some b) stars (oks ++ r :: more)).ret = some (b.length : Int) ∧
    sentMsgs (sendFile c (some b) stars (oks ++ r :: more)).trace =
      c.EncryptAndSignMessage (to_string (b.length : Int)) ::
        (List.range (k + 1)).map (fun i => c.EncryptAndSignMessage (chunkAt b i)) ∧
    recvResults (sendFile c (some b) stars (oks ++ r :: more)).trace = oks ++ [r] ∧
    ((List.range (k + 1)).map (chunkAt b)).flatten = b ∧
    (∀ i, i < k + 1 → chunkAt b i ≠ [] ∧ (chunkAt b i).length ≤ BUFF_SIZE) := by
  have hbne : b ≠ [] := by
    apply List.ne_nil_of_length_pos
    omega
  have hreach : oks.length * BUFF_SIZE ≤ b.length := by rw [hlen, hb]; omega
  have hlast : (b.drop (oks.length * BUFF_SIZE)).length < BUFF_SIZE := by
    rw [List.length_drop, hlen, hb]
    omega
  have hmax : 0 + oks.length * BUFF_SIZE ≤ SIZE_MAX :=
    lt_two_pow_le_SIZE_MAX _ (by omega)
  have h2 := sendChunks_fullRounds c oks (r :: more) b 0 hoks hreach hmax
  have htotal : 0 + oks.length * BUFF_SIZE + (b.drop (oks.length * BUFF_SIZE)).length =
      b.length := by
    rw [List.length_drop]
    omega
  rw [sendChunks_ack_last c r more _ _ hr hlast, htotal, toInt32_toSizeT_of_lt _ hsz] at h2
  have hchunk : b.drop (oks.length * BUFF_SIZE) = chunkAt b oks.length := by
    rw [chunkAt, List.take_of_length_le (Nat.le_of_lt hlast)]
  refine ⟨?_, ?_, ?_, ?_, ?_⟩
  · rw [sendFile_some c b stars _ hbne hsz, h2]
    rfl
  · rw [sendFile_some c b stars _ hbne hsz, h2, hchunk, ← hlen]
    simp [sentMsgs_append, sentMsgs_fullRounds, List.range_succ]
  · rw [sendFile_some c b stars _ hbne hsz, h2]
    simp [recvResults_append, recvResults_fullRounds]
  · rw [flatten_chunkAt]
    apply List.take_of_length_le
    rw [hb]
    have : (k + 1) * BUFF_SIZE = k * BUFF_SIZE + BUFF_SIZE := by ring
    omega
  · intro i hi
    have hl := chunkAt_length b i
    have hik : i * BUFF_SIZE ≤ k * BUFF_SIZE := Nat.mul_le_mul_right _ (by omega)
    constructor
    · apply List.ne_nil_of_length_pos
      rw [hl, hb]
      have : 0 < BUFF_SIZE := by omega
      omega
    · rw [hl]
      exact Nat.min_le_left _ _

/-! ## C4: scenario B -/

/-- C4: `sendFile` on an open 10000-byte source, answered with the
acknowledgment `O`, `K`, NUL each time, sends the size announcement "10000",
then three chunk messages of 4096, 4096 and 1808 bytes, each followed by the
receipt of one acknowledgment, consumes exactly three results, and returns
10000. -/
theorem sendFile_scenario_B (c : SecureMessageCreator) (b : List Byte) (stars : Bool)
    (r₁ r₂ r₃ : Received) (more : List Received)
    (hb : b.length = 10000)
    (h₁ : verifies c r₁ ackOK) (h₂ : verifies c r₂ ackOK) (h₃ : verifies c r₃ ackOK) :
    sendFile c (some b) stars (r₁ :: r₂ :: r₃ :: more) =
      ⟨[sendSecureMsg c [49, 48, 48, 48, 48],
        sendSecureMsg c (b.take 4096), Event.recvMsg r₁,
        sendSecureMsg c ((b.drop 4096).take 4096), Event.recvMsg r₂,
        sendSecureMsg c (b.drop 8192), Event.recvMsg r₃], some 10000⟩ ∧
    (b.take 4096).length = 4096 ∧ ((b.drop 4096).take 4096).length = 4096 ∧
    (b.drop 8192).length = 1808 ∧
    b.take 4096 ++ (b.drop 4096).take 4096 ++ b.drop 8192 = b := by
  have hbne : b ≠ [] := by
    apply List.ne_nil_of_length_pos
    omega
  have hts : to_string ((b.length : Nat) : Int) = [49, 48, 48, 48, 48] := by
    rw [hb]
    decide
  have hround := sendChunks_fullRounds c [r₁, r₂] (r₃ :: more) b 0
    (by
      intro x hx
      simp only [List.mem_cons, List.mem_singleton, List.not_mem_nil, or_false] at hx
      rcases hx with rfl | rfl
      · exact isAck_of_verifies_ackOK h₁
      · exact isAck_of_verifies_ackOK h₂)
    (by simp [BUFF_SIZE, hb])
    (by simp [BUFF_SIZE, SIZE_MAX])
  have hlast : (b.drop (2 * BUFF_SIZE)).length < BUFF_SIZE := by
    simp [BUFF_SIZE, hb]
  have hsz : b.length < 2 ^ 31 := by
    rw [hb]
    decide
  have htotal : 0 + 2 * BUFF_SIZE + (b.drop (2 * BUFF_SIZE)).length = 10000 := by
    simp [BUFF_SIZE, hb]
  have hfin := sendChunks_ack_last c r₃ more (b.drop (2 * BUFF_SIZE)) (0 + 2 * BUFF_SIZE)
    (isAck_of_verifies_ackOK h₃) hlast
  rw [htotal, toInt32_toSizeT_of_lt 10000 (by decide)] at hfin
  refine ⟨?_, ?_, ?_, ?_, ?_⟩
  · rw [sendFile_some c b stars _ hbne hsz, hts]
    have e : r₁ :: r₂ :: r₃ :: more = [r₁, r₂] ++ r₃ :: more := rfl
    rw [e, hround]
    simp only [List.length_cons, List.length_nil]
    rw [hfin]
    simp [Run.step, Run.after, fullRounds, BUFF_SIZE, List.drop_drop]
  · simp [hb]
  · simp [hb]
  · simp [hb]
  · rw [List.append_assoc]
    have e : b.drop 8192 = (b.drop 4096).drop 4096 := by simp [List.drop_drop]
    rw [e, List.take_append_drop, List.take_append_drop]

/-- C4 (witness): a file of 10000 zero bytes under the demonstration capability. -/
theorem sendFile_scenario_B_witness :
    sendFile tagCrypto (some (zeros 10000)) false (demoAck :: demoAck :: demoAck :: []) =
      ⟨[sendSecureMsg tagCrypto [49, 48, 48, 48, 48],
        sendSecureMsg tagCrypto ((zeros 10000).take 4096), Event.recvMsg demoAck,
        sendSecureMsg tagCrypto (((zeros 10000).drop 4096).take 4096), Event.recvMsg demoAck,
        sendSecureMsg tagCrypto ((zeros 10000).drop 8192), Event.recvMsg demoAck], some 10000⟩ ∧
    ((zeros 10000).take 4096).length = 4096 ∧
    (((zeros 10000).drop 4096).take 4096).length = 4096 ∧
    ((zeros 10000).drop 8192).length = 1808 ∧
    (zeros 10000).take 4096 ++ ((zeros 10000).drop 4096).take 4096 ++ (zeros 10000).drop 8192 =
      zeros 10000 :=
  sendFile_scenario_B tagCrypto (zeros 10000) false demoAck demoAck demoAck []
    (List.length_replicate 10000 (0 : Byte)) ⟨by decide, by decide⟩ ⟨by decide, by decide⟩ ⟨by decide, by decide⟩

/-! ## C5: the zero-length source -/

/-- C5: `sendFile` on an open source of length 0 sends exactly one secure
message, the size announcement "0", receives nothing, and returns 0. -/
theorem sendFile_empty (c : SecureMessageCreator) (stars : Bool) (incoming : List Received) :
    sendFile c (some []) stars incoming = ⟨[sendSecureMsg c [48]], some 0⟩ := by
  rfl

/-! ## C6: the sender's acknowledgment contract -/

/-- C6 (as amended): for an open source of length n with 0 < n < 2 ^ 31 (the
lengths that `int fileSize` holds), when the chunks before it were positively
acknowledged and the reply to a chunk is not a positive acknowledgment,
`sendFile` sends no further message and consumes no further result; it returns 0 when the peer closed and also when the reply
verifies to an empty plaintext, -1 when the reply fails verification, and -2
when the reply verifies to a non-empty plaintext whose C string value is not
"OK"; in every case the value is not n. -/
theorem sendFile_bad_reply (c : SecureMessageCreator) (b : List Byte) (stars : Bool)
    (oks : List Received) (bad : Received) (more : List Received)
    (hb : b ≠ []) (hsz : b.length < 2 ^ 31) (hoks : ∀ x ∈ oks, isAck c x)
    (hreach : oks.length * BUFF_SIZE ≤ b.length) (hbad : ¬ isAck c bad) :
    sentMsgs (sendFile c (some b) stars (oks ++ bad :: more)).trace =
      c.EncryptAndSignMessage (to_string (b.length : Int)) ::
        (List.range (oks.length + 1)).map (fun i => c.EncryptAndSignMessage (chunkAt b i)) ∧
    recvResults (sendFile c (some b) stars (oks ++ bad :: more)).trace = oks ++ [bad] ∧
    (peerClosed bad ∨ verifies c bad [] →
      (sendFile c (some b) stars (oks ++ bad :: more)).ret = some 0) ∧
    (rejected c bad → (sendFile c (some b) stars (oks ++ bad :: more)).ret = some (-1)) ∧
    (∀ p, verifies c bad p → p ≠ [] → cString p ≠ strOK →
      (sendFile c (some b) stars (oks ++ bad :: more)).ret = some (-2)) ∧
    (∃ v : Int, (sendFile c (some b) stars (oks ++ bad :: more)).ret = some v ∧
      v ≠ (b.length : Int) ∧ (v = 0 ∨ v = -1 ∨ v = -2)) := by
  have hn : 0 < b.length := List.length_pos.mpr hb
  have hrounds := sendChunks_fullRounds c oks (bad :: more) b 0 hoks hreach
    (lt_two_pow_le_SIZE_MAX _ (by omega))
  obtain ⟨hA, hB, hC⟩ := sendChunks_not_ack c bad more (b.drop (oks.length * BUFF_SIZE))
    (0 + oks.length * BUFF_SIZE)
  have hchunk : (b.drop (oks.length * BUFF_SIZE)).take BUFF_SIZE = chunkAt b oks.length := rfl
  rw [sendFile_some c b stars _ hb hsz, hrounds]
  have key : ∀ v : Int,
      sendChunks c (bad :: more) (b.drop (oks.length * BUFF_SIZE)) (0 + oks.length * BUFF_SIZE) =
        ⟨[sendSecureMsg c ((b.drop (oks.length * BUFF_SIZE)).take BUFF_SIZE), Event.recvMsg bad],
          some v⟩ →
      sentMsgs (Run.step (sendSecureMsg c (to_string (b.length : Int)))
          (Run.after (fullRounds c oks b)
            (sendChunks c (bad :: more) (b.drop (oks.length * BUFF_SIZE))
              (0 + oks.length * BUFF_SIZE)))).trace =
        c.EncryptAndSignMessage (to_string (b.length : Int)) ::
          (List.range (oks.length + 1)).map (fun i => c.EncryptAndSignMessage (chunkAt b i)) ∧
      recvResults (Run.step (sendSecureMsg c (to_string (b.length : Int)))
          (Run.after (fullRounds c oks b)
            (sendChunks c (bad :: more) (b.drop (oks.length * BUFF_SIZE))
              (0 + oks.length * BUFF_SIZE)))).trace = oks ++ [bad] ∧
      (Run.step (sendSecureMsg c (to_string (b.length : Int)))
          (Run.after (fullRounds c oks b)
            (sendChunks c (bad :: more) (b.drop (oks.length * BUFF_SIZE))
              (0 + oks.length * BUFF_SIZE)))).ret = some v := by
    intro v hv
    rw [hv, hchunk]
    simp [sentMsgs_append, recvResults_append, sentMsgs_fullRounds, recvResults_fullRounds,
      List.range_succ]
  rcases not_isAck_cases c bad hbad with h | h | ⟨p, hv, hp, hne⟩
  · obtain ⟨k1, k2, k3⟩ := key 0 (hA h)
    refine ⟨k1, k2, fun _ => k3, ?_, ?_, ⟨0, k3, by omega, Or.inl rfl⟩⟩
    · intro hr
      rcases h with h | h
      · exact absurd h (not_peerClosed_of_rejected hr)
      · exact absurd hr (not_rejected_of_verifies h)
    · intro q hq hqne _
      rcases h with h | h
      · exact absurd h (not_peerClosed_of_verifies hq)
      · exact absurd (verifies_unique hq h) hqne
  · obtain ⟨k1, k2, k3⟩ := key (-1) (hB h)
    refine ⟨k1, k2, ?_, fun _ => k3, ?_, ⟨-1, k3, by omega, Or.inr (Or.inl rfl)⟩⟩
    · rintro (h' | h')
      · exact absurd h' (not_peerClosed_of_rejected h)
      · exact absurd h (not_rejected_of_verifies h')
    · intro q hq _ _
      exact absurd h (not_rejected_of_verifies hq)
  · obtain ⟨k1, k2, k3⟩ := key (-2) (hC p hv hp hne)
    refine ⟨k1, k2, ?_, ?_, fun _ _ _ _ => k3, ⟨-2, k3, by omega, Or.inr (Or.inr rfl)⟩⟩
    · rintro (h' | h')
      · exact absurd h' (not_peerClosed_of_verifies hv)
      · exact absurd (verifies_unique hv h') hp
    · intro hr
      exact absurd hr (not_rejected_of_verifies hv)

/-- C6 (witness): a one-byte file whose only chunk is answered by a close. -/
theorem sendFile_bad_reply_witness :
    sentMsgs (sendFile tagCrypto (some [1]) false ([] ++ (⟨0, []⟩ : Received) :: [])).trace =
      tagCrypto.EncryptAndSignMessage (to_string (([1] : List Byte).length : Int)) ::
        (List.range (([] : List Received).length + 1)).map
          (fun i => tagCrypto.EncryptAndSignMessage (chunkAt [1] i)) ∧
    recvResults (sendFile tagCrypto (some [1]) false ([] ++ (⟨0, []⟩ : Received) :: [])).trace =
      [] ++ [⟨0, []⟩] ∧
    (sendFile tagCrypto (some [1]) false ([] ++ (⟨0, []⟩ : Received) :: [])).ret = some 0 :=
  have h := sendFile_bad_reply tagCrypto [1] false [] ⟨0, []⟩ [] (by decide) (by decide)
    (by intro x hx; cases hx) (by decide)
    (by rintro ⟨p, ⟨h0, -⟩, -⟩; exact h0 rfl)
  ⟨h.1, h.2.1, h.2.2.1 (Or.inl rfl)⟩

/-- C6 (counterexample to the claim as stated): the reply to the only chunk
verifies to the empty plaintext, which is not the token "OK"; `sendFile`
returns 0, the value it returns for a peer close, and not -2. -/
theorem sendFile_empty_reply_returns_zero :
    verifies tagCrypto ⟨1, [90]⟩ [] ∧ cString [] ≠ strOK ∧
    (sendFile tagCrypto (some [1]) false [⟨1, [90]⟩]).ret = some 0 ∧
    (sendFile tagCrypto (some [1]) false [⟨0, []⟩]).ret = some 0 ∧
    (sendFile tagCrypto (some [1]) false [⟨1, [90]⟩]).ret ≠ some (-2) := by
  refine ⟨⟨by decide, by decide⟩, by decide, by decide, by decide, by decide⟩

/-! ## Lengths that `int fileSize` does not hold -/

/-- A source of `2 ^ 32` bytes: `int fileSize = file.tellg()` is 0, so
`sendFile` announces the size "0", sends no chunk and returns 0, whatever the
peer would reply. -/
theorem sendFile_length_wraps (c : SecureMessageCreator) (b : List Byte) (stars : Bool)
    (incoming : List Received) (h : b.length = 2 ^ 32) :
    sendFile c (some b) stars incoming = ⟨[sendSecureMsg c [48]], some 0⟩ := by
  have h0 : toInt32 (b.length : Int) = 0 := by
    rw [h]
    decide
  simp only [sendFile, h0]
  rfl

/-- The source of `2 ^ 32` zero bytes is announced as "0" and not sent. -/
theorem sendFile_zeros_length_wraps :
    sendFile tagCrypto (some (zeros 4294967296)) false [demoForged] =
      ⟨[sendSecureMsg tagCrypto [48]], some 0⟩ :=
  sendFile_length_wraps tagCrypto (zeros 4294967296) false [demoForged]
    (List.length_replicate 4294967296 (0 : Byte))

/-! ## C7: a failed size announcement -/

/-- C7 (the code at the failing input): when the first `recvSecureMsg` of
`receiveFile` reports that the peer closed, `receiveFile` goes on to call
`writeFile.open` on the destination, whatever the file name and whatever the
unassigned `writer` addresses; when the extraction from that text yields 0 and
the file opens, it returns 0.  When
the first receive fails verification instead, `receiveFile` returns -1 and
has neither opened the file nor sent a message. -/
theorem receiveFile_first_receive_fails (c : SecureMessageCreator) (canOpen : String → Bool)
    (filename : String) (writer₀ : List Byte) (fileSize₀ : Nat) (r : Received) (more : List Received) :
    (peerClosed r →
      (receiveFile c canOpen filename writer₀ fileSize₀ (r :: more)).trace.take 2 =
        [Event.recvMsg r, Event.fileOpen filename (canOpen filename)] ∧
      openCalled (receiveFile c canOpen filename writer₀ fileSize₀ (r :: more)).trace = true ∧
      (canOpen filename = true → extractSize (cString writer₀) fileSize₀ = 0 →
        receiveFile c canOpen filename writer₀ fileSize₀ (r :: more) =
          ⟨[Event.recvMsg r, Event.fileOpen filename true], some 0⟩)) ∧
    (rejected c r →
      receiveFile c canOpen filename writer₀ fileSize₀ (r :: more) = ⟨[Event.recvMsg r], some (-1)⟩) := by
  constructor
  · intro h
    refine ⟨?_, ?_, ?_⟩
    · simp [receiveFile, recvSecureMsg_closed c r writer₀ h]
    · simp [receiveFile, recvSecureMsg_closed c r writer₀ h, openCalled]
    · intro hopen hsize
      simp [receiveFile, recvSecureMsg_closed c r writer₀ h, hopen, hsize,
        receiveChunks_done c more 0 0 (Nat.le_refl 0), Run.step, Run.done]
  · intro h
    simp [receiveFile, recvSecureMsg_rejected c r writer₀ h, Run.step, Run.done]

/-- C7 (witness): the peer closes before the size announcement. -/
theorem receiveFile_first_receive_fails_witness :
    peerClosed demoClosed ∧
    (receiveFile tagCrypto (fun _ => true) "upload" [] 0 (demoClosed :: [])).trace.take 2 =
      [Event.recvMsg demoClosed, Event.fileOpen "upload" true] ∧
    openCalled (receiveFile tagCrypto (fun _ => true) "upload" [] 0 (demoClosed :: [])).trace = true ∧
    receiveFile tagCrypto (fun _ => true) "upload" [] 0 (demoClosed :: []) =
      ⟨[Event.recvMsg demoClosed, Event.fileOpen "upload" true], some 0⟩ :=
  have h := (receiveFile_first_receive_fails tagCrypto (fun _ => true) "upload" [] 0
    demoClosed []).1 rfl
  ⟨rfl, h.1, h.2.1, h.2.2 rfl (by decide)⟩

/-! ## C8: the peer closes after the size announcement -/

/-- C9: when the chunks before it were valid and non-empty and a chunk fails
verification, `receiveFile` and `reciveAndPrintBigMessage` send exactly one
further message, the 21 bytes "[69, 82, 82, 79, 82, 32, 72, 97, 115, 104, 32, 110, 111, 116, 32, 118, 97, 108, 105, 100, 0]OR Hash not valid" with the closing NUL
(69 82 82 79 82 32 72 97 115 104 32 110 111 116 32 118 97 108 105 100 0),
and return -2.  The bytes written to the file are exactly the earlier
chunks, the payload displayed is exactly the C string values of the earlier
chunks, and the messages sent before are one "OK" (79 75 0) per earlier
chunk.  The negative token differs from the positive one, also as a C
string. -/
theorem receivers_chunk_rejected (c : SecureMessageCreator) (canOpen : String → Bool)
    (filename : String) (writer₀ : List Byte) (fileSize₀ : Nat) (r₀ : Received) (a : List Byte)
    (rs : List Received) (ps : List (List Byte)) (bad : Received) (more : List Received)
    (hv : verifies c r₀ a) (hopen : canOpen filename = true)
    (hf : List.Forall₂ (verifies c) rs ps) (hne : ∀ p ∈ ps, p ≠ [])
    (hlt : totalLength ps < extractSize (cString a) fileSize₀) (hbad : rejected c bad) :
    receiveFile c canOpen filename writer₀ fileSize₀ (r₀ :: (rs ++ bad :: more)) =
      ⟨Event.recvMsg r₀ :: Event.fileOpen filename true ::
        (storeRounds c rs ps ++ [Event.recvMsg bad, sendSecureMsg c
          [69, 82, 82, 79, 82, 32, 72, 97, 115, 104, 32, 110, 111, 116, 32, 118, 97, 108, 105, 100, 0]]),
        some (-2)⟩ ∧
    written (receiveFile c canOpen filename writer₀ fileSize₀ (r₀ :: (rs ++ bad :: more))).trace =
      ps.flatten ∧
    sentMsgs (receiveFile c canOpen filename writer₀ fileSize₀ (r₀ :: (rs ++ bad :: more))).trace =
      List.replicate ps.length (c.EncryptAndSignMessage [79, 75, 0]) ++
        [c.EncryptAndSignMessage
          [69, 82, 82, 79, 82, 32, 72, 97, 115, 104, 32, 110, 111, 116, 32, 118, 97, 108, 105, 100, 0]] ∧
    reciveAndPrintBigMessage c writer₀ fileSize₀ (r₀ :: (rs ++ bad :: more)) =
      ⟨Event.recvMsg r₀ ::
        (showRounds c rs ps ++ [Event.recvMsg bad, sendSecureMsg c
          [69, 82, 82, 79, 82, 32, 72, 97, 115, 104, 32, 110, 111, 116, 32, 118, 97, 108, 105, 100, 0]]),
        some (-2)⟩ ∧
    displayed (reciveAndPrintBigMessage c writer₀ fileSize₀ (r₀ :: (rs ++ bad :: more))).trace =
      (ps.map cString).flatten ∧
    sentMsgs (reciveAndPrintBigMessage c writer₀ fileSize₀ (r₀ :: (rs ++ bad :: more))).trace =
      List.replicate ps.length (c.EncryptAndSignMessage [79, 75, 0]) ++
        [c.EncryptAndSignMessage
          [69, 82, 82, 79, 82, 32, 72, 97, 115, 104, 32, 110, 111, 116, 32, 118, 97, 108, 105, 100, 0]] ∧
    ackError =
      [69, 82, 82, 79, 82, 32, 72, 97, 115, 104, 32, 110, 111, 116, 32, 118, 97, 108, 105, 100, 0] ∧
    ackOK = [79, 75, 0] ∧ strOK = [79, 75] ∧ ackError ≠ ackOK ∧ cString ackError ≠ strOK := by
  have hlt0 : ps ≠ [] → 0 + totalLength ps.dropLast < extractSize (cString a) fileSize₀ := by
    intro _
    have := totalLength_dropLast_le ps
    omega
  have hw : toSizeT (0 + totalLength ps) < extractSize (cString a) fileSize₀ := by
    have := toSizeT_le (0 + totalLength ps)
    omega
  have hfile : receiveFile c canOpen filename writer₀ fileSize₀ (r₀ :: (rs ++ bad :: more)) =
      ⟨Event.recvMsg r₀ :: Event.fileOpen filename true ::
        (storeRounds c rs ps ++ [Event.recvMsg bad, sendSecureMsg c ackError]), some (-2)⟩ := by
    rw [receiveFile_announced c canOpen filename writer₀ fileSize₀ r₀ _ a hv hopen,
      receiveChunks_storeRounds c _ rs ps (bad :: more) 0 hf hne hlt0 (Nat.zero_le _),
      receiveChunks_rejected c bad more _ _ hw hbad]
    simp [Run.after]
  have hshow : reciveAndPrintBigMessage c writer₀ fileSize₀ (r₀ :: (rs ++ bad :: more)) =
      ⟨Event.recvMsg r₀ ::
        (showRounds c rs ps ++ [Event.recvMsg bad, sendSecureMsg c ackError]), some (-2)⟩ := by
    rw [reciveAndPrintBigMessage_announced c writer₀ fileSize₀ r₀ _ a hv,
      printChunks_showRounds c _ rs ps (bad :: more) 0 hf hne hlt0 (Nat.zero_le _),
      printChunks_rejected c bad more _ _ hw hbad]
    simp [Run.after]
  refine ⟨hfile, ?_, ?_, hshow, ?_, ?_, rfl, rfl, rfl, by decide, by decide⟩
  · rw [hfile]
    simp [written_append, written_storeRounds c rs ps hf]
  · rw [hfile]
    simp [sentMsgs_append, sentMsgs_storeRounds c rs ps hf]
    rfl
  · rw [hshow]
    simp [displayed_append, displayed_showRounds c rs ps hf]
  · rw [hshow]
    simp [sentMsgs_append, sentMsgs_showRounds c rs ps hf]
    rfl

/-- C9 (witness): size 5, the valid chunk `1, 2, 3`, then a forged envelope:
both receivers send one "OK" and then "[69, 82, 82, 79, 82, 32, 72, 97, 115, 104, 32, 110, 111, 116, 32, 118, 97, 108, 105, 100, 0]OR Hash not valid". -/
theorem receivers_chunk_rejected_witness :
    receiveFile tagCrypto (fun _ => true) "upload" [] 0
        (demoSize5 :: ([demoChunkA] ++ demoForged :: [])) =
      ⟨Event.recvMsg demoSize5 :: Event.fileOpen "upload" true ::
        (storeRounds tagCrypto [demoChunkA] [[1, 2, 3]] ++
          [Event.recvMsg demoForged, sendSecureMsg tagCrypto
            [69, 82, 82, 79, 82, 32, 72, 97, 115, 104, 32, 110, 111, 116, 32, 118, 97, 108, 105, 100, 0]]),
        some (-2)⟩ ∧
    written (receiveFile tagCrypto (fun _ => true) "upload" [] 0
        (demoSize5 :: ([demoChunkA] ++ demoForged :: []))).trace = [[1, 2, 3]].flatten ∧
    sentMsgs (receiveFile tagCrypto (fun _ => true) "upload" [] 0
        (demoSize5 :: ([demoChunkA] ++ demoForged :: []))).trace =
      List.replicate [[1, 2, 3]].length (tagCrypto.EncryptAndSignMessage [79, 75, 0]) ++
        [tagCrypto.EncryptAndSignMessage
          [69, 82, 82, 79, 82, 32, 72, 97, 115, 104, 32, 110, 111, 116, 32, 118, 97, 108, 105, 100, 0]] ∧
    sentMsgs (reciveAndPrintBigMessage tagCrypto [] 0
        (demoSize5 :: ([demoChunkA] ++ demoForged :: []))).trace =
      List.replicate [[1, 2, 3]].length (tagCrypto.EncryptAndSignMessage [79, 75, 0]) ++
        [tagCrypto.EncryptAndSignMessage
          [69, 82, 82, 79, 82, 32, 72, 97, 115, 104, 32, 110, 111, 116, 32, 118, 97, 108, 105, 100, 0]] :=
  have h := receivers_chunk_rejected tagCrypto (fun _ => true) "upload" [] 0 demoSize5 [53]
    [demoChunkA] [[1, 2, 3]] demoForged [] ⟨by decide, by decide⟩ rfl
    (List.Forall₂.cons ⟨by decide, by decide⟩ List.Forall₂.nil) (by decide) (by decide)
    ⟨by decide, by decide⟩
  ⟨h.1, h.2.1, h.2.2.1, h.2.2.2.2.2.1⟩

/-! ## C10: the receiver's chunk step -/

theorem totalLength_replicate (k : Nat) (p : List Byte) :
    totalLength (List.replicate k p) = k * p.length := by
  induction k with
  | zero => simp
  | succ k ih => rw [List.replicate_succ, totalLength_cons, ih]; ring

theorem forall₂_verifies_replicate (c : SecureMessageCreator) (r : Received) (p : List Byte)
    (h : verifies c r p) :
    ∀ k : Nat, List.Forall₂ (verifies c) (List.replicate k r) (List.replicate k p)
  | 0 => List.Forall₂.nil
  | k + 1 => List.Forall₂.cons h (forall₂_verifies_replicate c r p h k)

theorem verifies_demoBlock : verifies tagCrypto demoBlock (zeros 4096) := by
  have hlen : (((tagCrypto.EncryptAndSignMessage (zeros 4096)).length : Nat) : Int) = 4097 := by
    show (((tagOf (zeros 4096) :: zeros 4096).length : Nat) : Int) = 4097
    rw [List.length_cons, zeros, List.length_replicate]
    rfl
  refine ⟨by decide, ?_⟩
  have h := (tagCrypto_inverts (zeros 4096)).2
  rw [hlen] at h
  exact h


/-- C10 (counterexample): the declared size is 2147483648 and the peer sends
524288 valid chunks of 4096 bytes each, 2147483648 bytes in all.  After the
last of them the counter has reached the declared size and `receiveFile`
returns -2147483648, the counter narrowed to `int`, not the sum of the chunk
lengths. -/
theorem receiveFile_return_wraps :
    verifies tagCrypto demoSize2G [50, 49, 52, 55, 52, 56, 51, 54, 52, 56] ∧
    extractSize (cString [50, 49, 52, 55, 52, 56, 51, 54, 52, 56]) 0 = 2147483648 ∧
    List.Forall₂ (verifies tagCrypto) (List.replicate 524288 demoBlock)
      (List.replicate 524288 (zeros 4096)) ∧
    totalLength (List.replicate 524288 (zeros 4096)) = 2147483648 ∧
    totalLength (List.replicate 524288 (zeros 4096)).dropLast < 2147483648 ∧
    (receiveFile tagCrypto (fun _ => true) "upload" [] 0
      (demoSize2G :: List.replicate 524288 demoBlock)).ret = some (-2147483648) ∧
    (receiveFile tagCrypto (fun _ => true) "upload" [] 0
      (demoSize2G :: List.replicate 524288 demoBlock)).ret ≠
        some (totalLength (List.replicate 524288 (zeros 4096)) : Int) := by
  have hv : verifies tagCrypto demoSize2G [50, 49, 52, 55, 52, 56, 51, 54, 52, 56] :=
    ⟨by decide, by decide⟩
  have hn : extractSize (cString [50, 49, 52, 55, 52, 56, 51, 54, 52, 56]) 0 = 2147483648 := by
    decide
  have hf := forall₂_verifies_replicate tagCrypto demoBlock (zeros 4096) verifies_demoBlock 524288
  have hlen : (zeros 4096).length = 4096 := List.length_replicate 4096 (0 : Byte)
  have htot : totalLength (List.replicate 524288 (zeros 4096)) = 2147483648 := by
    rw [totalLength_replicate, hlen]
  have hdrop : totalLength (List.replicate 524288 (zeros 4096)).dropLast < 2147483648 := by
    rw [List.dropLast_replicate, totalLength_replicate, hlen]
    decide
  have hne : ∀ p ∈ List.replicate 524288 (zeros 4096), p ≠ [] := by
    intro p hp
    rw [List.eq_of_mem_replicate hp]
    intro h0
    rw [h0] at hlen
    exact absurd hlen (by decide)
  have hret : (receiveFile tagCrypto (fun _ => true) "upload" [] 0
      (demoSize2G :: List.replicate 524288 demoBlock)).ret = some (-2147483648) := by
    rw [receiveFile_announced tagCrypto (fun _ => true) "upload" [] 0 demoSize2G _ _ hv rfl, hn,
      ← List.append_nil (List.replicate 524288 demoBlock),
      receiveChunks_storeRounds tagCrypto 2147483648 _ _ [] 0 hf hne
        (by intro _; rw [Nat.zero_add]; exact hdrop) (Nat.zero_le _),
      Nat.zero_add, htot,
      receiveChunks_done tagCrypto [] 2147483648 (toSizeT 2147483648) (by decide)]
    simp only [Run.ret_after, Run.done]
    decide
  refine ⟨hv, hn, hf, htot, hdrop, hret, ?_⟩
  rw [hret, htot]
  decide

/-- C10 (as amended): for a declared size n and valid non-empty chunks
received until the counter reaches n, fewer than `2 ^ 31` bytes in all,
`receiveFile` (with a destination that opens) receives exactly those chunks,
answers each with one "OK" (the bytes 79 75 0), writes exactly their
concatenation, and returns the sum of their actual lengths; after these
chunks its loop stands at the counter value that is the sum of their actual
lengths. -/
theorem receiveFile_valid_chunks (c : SecureMessageCreator) (canOpen : String → Bool)
    (filename : String) (writer₀ : List Byte) (fileSize₀ : Nat) (r₀ : Received) (a : List Byte)
    (rs : List Received) (ps : List (List Byte)) (more : List Received)
    (hv : verifies c r₀ a) (hopen : canOpen filename = true)
    (hf : List.Forall₂ (verifies c) rs ps) (hne : ∀ p ∈ ps, p ≠ [])
    (hlt : ps ≠ [] → totalLength ps.dropLast < extractSize (cString a) fileSize₀)
    (hge : extractSize (cString a) fileSize₀ ≤ totalLength ps)
    (hsz : totalLength ps < 2 ^ 31) :
    receiveFile c canOpen filename writer₀ fileSize₀ (r₀ :: (rs ++ more)) =
      ⟨Event.recvMsg r₀ :: Event.fileOpen filename true :: storeRounds c rs ps,
        some (totalLength ps : Int)⟩ ∧
    written (receiveFile c canOpen filename writer₀ fileSize₀ (r₀ :: (rs ++ more))).trace = ps.flatten ∧
    sentMsgs (receiveFile c canOpen filename writer₀ fileSize₀ (r₀ :: (rs ++ more))).trace =
      List.replicate ps.length (c.EncryptAndSignMessage [79, 75, 0]) ∧
    recvResults (receiveFile c canOpen filename writer₀ fileSize₀ (r₀ :: (rs ++ more))).trace =
      r₀ :: rs ∧
    receiveChunks c (rs ++ more) (extractSize (cString a) fileSize₀) 0 =
      Run.after (storeRounds c rs ps)
        (receiveChunks c more (extractSize (cString a) fileSize₀) (totalLength ps)) := by
  have hlt0 : ps ≠ [] → 0 + totalLength ps.dropLast < extractSize (cString a) fileSize₀ := by
    intro h
    have := hlt h
    omega
  have hmax : totalLength ps ≤ SIZE_MAX := lt_two_pow_le_SIZE_MAX _ hsz
  have hloop := receiveChunks_storeRounds c _ rs ps more 0 hf hne hlt0 (Nat.zero_le _)
  rw [Nat.zero_add, toSizeT_of_le _ hmax] at hloop
  have hfile : receiveFile c canOpen filename writer₀ fileSize₀ (r₀ :: (rs ++ more)) =
      ⟨Event.recvMsg r₀ :: Event.fileOpen filename true :: storeRounds c rs ps,
        some (totalLength ps : Int)⟩ := by
    rw [receiveFile_announced c canOpen filename writer₀ fileSize₀ r₀ _ a hv hopen, hloop,
      receiveChunks_done c more _ _ hge, toInt32_of_lt _ hsz]
    simp [Run.after, Run.done]
  refine ⟨hfile, ?_, ?_, ?_, hloop⟩
  · rw [hfile]
    simp [written_storeRounds c rs ps hf]
  · rw [hfile]
    simp only [sentMsgs_recv, sentMsgs_open, sentMsgs_storeRounds c rs ps hf]
    rfl
  · rw [hfile]
    simp [recvResults_storeRounds c rs ps hf]

/-- C10 (witness): size 5 received as the chunks `1, 2, 3` and `4, 5`, each
answered with "OK". -/
theorem receiveFile_valid_chunks_witness :
    receiveFile tagCrypto (fun _ => true) "upload" [] 0
        (demoSize5 :: ([demoChunkA, demoChunkB] ++ [])) =
      ⟨Event.recvMsg demoSize5 :: Event.fileOpen "upload" true ::
        storeRounds tagCrypto [demoChunkA, demoChunkB] [[1, 2, 3], [4, 5]],
        some (totalLength [[1, 2, 3], [4, 5]] : Int)⟩ ∧
    written (receiveFile tagCrypto (fun _ => true) "upload" [] 0
        (demoSize5 :: ([demoChunkA, demoChunkB] ++ []))).trace = [[1, 2, 3], [4, 5]].flatten ∧
    sentMsgs (receiveFile tagCrypto (fun _ => true) "upload" [] 0
        (demoSize5 :: ([demoChunkA, demoChunkB] ++ []))).trace =
      List.replicate [[1, 2, 3], [4, 5]].length (tagCrypto.EncryptAndSignMessage [79, 75, 0]) :=
  have h := receiveFile_valid_chunks tagCrypto (fun _ => true) "upload" [] 0 demoSize5 [53]
    [demoChunkA, demoChunkB] [[1, 2, 3], [4, 5]] [] ⟨by decide, by decide⟩ rfl
    (List.Forall₂.cons ⟨by decide, by decide⟩
      (List.Forall₂.cons ⟨by decide, by decide⟩ List.Forall₂.nil))
    (by decide) (by intro _; decide) (by decide) (by decide)
  ⟨h.1, h.2.1, h.2.2.1⟩

/-! ## Transfer fidelity off the exact multiples of `BUFF_SIZE`

The joint run of `sendFile` and `receiveFile` for the lengths at which the
sender's loop does end with the file. -/

theorem deliver_nil : deliver [] = [] := rfl

theorem deliver_cons (m : List Byte) (ms : List (List Byte)) :
    deliver (m :: ms) = ⟨(m.length : Int), m⟩ :: deliver ms := rfl

theorem deliver_append (xs ys : List (List Byte)) :
    deliver (xs ++ ys) = deliver xs ++ deliver ys := by
  simp [deliver]

theorem deliver_length (xs : List (List Byte)) : (deliver xs).length = xs.length := by
  simp [deliver]

theorem isAck_delivered_acks (c : SecureMessageCreator) (hc : inverts c) (j : Nat) :
    ∀ x ∈ deliver (List.replicate j (c.EncryptAndSignMessage ackOK)), isAck c x := by
  intro x hx
  simp only [deliver, List.map_replicate, List.mem_replicate] at hx
  rw [hx.2]
  exact isAck_of_verifies_ackOK (verifies_delivered c hc ackOK)

theorem forall₂_verifies_delivered (c : SecureMessageCreator) (hc : inverts c)
    (ps : List (List Byte)) :
    List.Forall₂ (verifies c) (deliver (ps.map c.EncryptAndSignMessage)) ps := by
  induction ps with
  | nil => exact List.Forall₂.nil
  | cons p ps ih => exact List.Forall₂.cons (verifies_delivered c hc p) ih

theorem totalLength_eq_length_flatten (ps : List (List Byte)) :
    totalLength ps = ps.flatten.length := by
  simp [totalLength, List.length_flatten]

theorem totalLength_chunks (b : List Byte) (j : Nat) :
    totalLength ((List.range j).map (chunkAt b)) = min (j * BUFF_SIZE) b.length := by
  rw [totalLength_eq_length_flatten, flatten_chunkAt, List.length_take]

/-- The sender of a file off the exact multiples, after `j` acknowledgments
that do not yet cover all chunks: it has sent `j + 1` chunks and waits. -/
theorem sendFile_waiting (c : SecureMessageCreator) (hc : inverts c) (b : List Byte)
    (stars : Bool) (k rem j : Nat) (hrem : 0 < rem)
    (hb : b.length = k * BUFF_SIZE + rem) (hsz : b.length < 2 ^ 31) (hj : j ≤ k) :
    (sendFile c (some b) stars
        (deliver (List.replicate j (c.EncryptAndSignMessage ackOK)))).ret = none ∧
    sentMsgs (sendFile c (some b) stars
        (deliver (List.replicate j (c.EncryptAndSignMessage ackOK)))).trace =
      c.EncryptAndSignMessage (to_string (b.length : Int)) ::
        (List.range (j + 1)).map (fun i => c.EncryptAndSignMessage (chunkAt b i)) := by
  have hbne : b ≠ [] := by
    apply List.ne_nil_of_length_pos
    omega
  have hlenj : (deliver (List.replicate j (c.EncryptAndSignMessage ackOK))).length = j := by
    rw [deliver_length, List.length_replicate]
  have hjk : j * BUFF_SIZE ≤ k * BUFF_SIZE := Nat.mul_le_mul_right _ hj
  have h := sendChunks_fullRounds c (deliver (List.replicate j (c.EncryptAndSignMessage ackOK)))
    [] b 0 (isAck_delivered_acks c hc j) (by rw [hlenj, hb]; omega)
    (lt_two_pow_le_SIZE_MAX _ (by rw [hlenj]; omega))
  rw [List.append_nil, sendChunks_nil, hlenj] at h
  rw [sendFile_some c b stars _ hbne hsz, h]
  constructor
  · rfl
  · simp [sentMsgs_append, sentMsgs_fullRounds, hlenj, List.range_succ, chunkAt]

/-- The sender of a file off the exact multiples, after all its chunks were
acknowledged: it has sent them all and returned the length. -/
theorem sendFile_complete (c : SecureMessageCreator) (hc : inverts c) (b : List Byte)
    (stars : Bool) (k rem : Nat) (hrem : 0 < rem) (hlt : rem < BUFF_SIZE)
    (hb : b.length = k * BUFF_SIZE + rem) (hsz : b.length < 2 ^ 31) :
    (sendFile c (some b) stars
        (deliver (List.replicate (k + 1) (c.EncryptAndSignMessage ackOK)))).ret =
      some (b.length : Int) ∧
    sentMsgs (sendFile c (some b) stars
        (deliver (List.replicate (k + 1) (c.EncryptAndSignMessage ackOK)))).trace =
      c.EncryptAndSignMessage (to_string (b.length : Int)) ::
        (List.range (k + 1)).map (fun i => c.EncryptAndSignMessage (chunkAt b i)) := by
  have e : deliver (List.replicate (k + 1) (c.EncryptAndSignMessage ackOK)) =
      deliver (List.replicate k (c.EncryptAndSignMessage ackOK)) ++
        (⟨((c.EncryptAndSignMessage ackOK).length : Int), c.EncryptAndSignMessage ackOK⟩ :
          Received) :: [] := by
    rw [List.replicate_succ', deliver_append]
    rfl
  have h := sendFile_off_multiple c b stars k rem
    (deliver (List.replicate k (c.EncryptAndSignMessage ackOK)))
    ⟨((c.EncryptAndSignMessage ackOK).length : Int), c.EncryptAndSignMessage ackOK⟩ []
    hrem hlt hb hsz (by rw [deliver_length, List.length_replicate])
    (isAck_delivered_acks c hc k) (isAck_of_verifies_ackOK (verifies_delivered c hc ackOK))
  rw [e]
  exact ⟨h.1, h.2.1⟩

theorem chunkAt_ne_nil (b : List Byte) (k rem i : Nat) (hrem : 0 < rem)
    (hb : b.length = k * BUFF_SIZE + rem) (hi : i ≤ k) : chunkAt b i ≠ [] := by
  apply List.ne_nil_of_length_pos
  have hik : i * BUFF_SIZE ≤ k * BUFF_SIZE := Nat.mul_le_mul_right _ hi
  have hpos : 0 < BUFF_SIZE := by decide
  rw [chunkAt_length, hb]
  omega

/-- The receiver of a file off the exact multiples, once the size and the
first `j` chunks were delivered: it has acknowledged each of them; it waits
while chunks are missing and has returned the length, with the file written,
when `j` is the number of chunks. -/
theorem receiveFile_delivered (c : SecureMessageCreator) (hc : inverts c) (b : List Byte)
    (canOpen : String → Bool) (filename : String) (writer₀ : List Byte) (fileSize₀ : Nat)
    (k rem j : Nat) (hrem : 0 < rem) (hlt : rem < BUFF_SIZE)
    (hb : b.length = k * BUFF_SIZE + rem) (hsz : b.length < 2 ^ 31)
    (hopen : canOpen filename = true) (hj : j ≤ k + 1) :
    sentMsgs (receiveFile c canOpen filename writer₀ fileSize₀
        (deliver (c.EncryptAndSignMessage (to_string (b.length : Int)) ::
          (List.range j).map (fun i => c.EncryptAndSignMessage (chunkAt b i))))).trace =
      List.replicate j (c.EncryptAndSignMessage ackOK) ∧
    (j = k + 1 →
      (receiveFile c canOpen filename writer₀ fileSize₀
        (deliver (c.EncryptAndSignMessage (to_string (b.length : Int)) ::
          (List.range j).map (fun i => c.EncryptAndSignMessage (chunkAt b i))))).ret =
        some (b.length : Int) ∧
      written (receiveFile c canOpen filename writer₀ fileSize₀
        (deliver (c.EncryptAndSignMessage (to_string (b.length : Int)) ::
          (List.range j).map (fun i => c.EncryptAndSignMessage (chunkAt b i))))).trace = b) := by
  have hpos : 0 < BUFF_SIZE := by decide
  have hmap : (List.range j).map (fun i => c.EncryptAndSignMessage (chunkAt b i)) =
      ((List.range j).map (chunkAt b)).map c.EncryptAndSignMessage := by
    rw [List.map_map]
    rfl
  have hf := forall₂_verifies_delivered c hc ((List.range j).map (chunkAt b))
  have hne : ∀ p ∈ (List.range j).map (chunkAt b), p ≠ [] := by
    intro p hp
    rw [List.mem_map] at hp
    obtain ⟨i, hi, rfl⟩ := hp
    rw [List.mem_range] at hi
    exact chunkAt_ne_nil b k rem i hrem hb (by omega)
  have hdl : (List.range j).map (chunkAt b) ≠ [] →
      0 + totalLength ((List.range j).map (chunkAt b)).dropLast < b.length := by
    intro hnil
    cases j with
    | zero => exact absurd rfl hnil
    | succ i =>
      rw [List.range_succ, List.map_append, List.map_singleton, List.dropLast_concat,
        totalLength_chunks]
      have hik : i * BUFF_SIZE ≤ k * BUFF_SIZE := Nat.mul_le_mul_right _ (by omega)
      omega
  have hrun := receiveChunks_storeRounds c b.length
    (deliver (((List.range j).map (chunkAt b)).map c.EncryptAndSignMessage))
    ((List.range j).map (chunkAt b)) [] 0 hf hne hdl (Nat.zero_le _)
  have hmax : b.length ≤ SIZE_MAX := lt_two_pow_le_SIZE_MAX _ hsz
  rw [List.append_nil, totalLength_chunks,
    toSizeT_of_le _ (Nat.le_trans (by omega) hmax)] at hrun
  rw [hmap, deliver_cons,
    receiveFile_announced c canOpen filename writer₀ fileSize₀ _ _ _
      (verifies_delivered c hc (to_string (b.length : Int))) hopen,
    extractSize_to_string b.length fileSize₀ hmax, hrun]
  constructor
  · have htr : (receiveChunks c [] b.length (0 + min (j * BUFF_SIZE) b.length)).trace = [] := by
      by_cases hw : 0 + min (j * BUFF_SIZE) b.length < b.length
      · rw [receiveChunks_blocked c _ _ hw]
        rfl
      · rw [receiveChunks_done c [] _ _ (by omega)]
        rfl
    rw [Run.trace_after, Run.trace_after, htr, List.append_nil]
    show sentMsgs (Event.recvMsg _ :: Event.fileOpen _ _ :: storeRounds c _ _) = _
    rw [sentMsgs_recv, sentMsgs_open, sentMsgs_storeRounds c _ _ hf, List.length_map,
      List.length_range]
  · intro hjk
    have hfull : min (j * BUFF_SIZE) b.length = b.length := by
      rw [hjk, hb]
      have : (k + 1) * BUFF_SIZE = k * BUFF_SIZE + BUFF_SIZE := by ring
      omega
    rw [hfull, receiveChunks_done c [] b.length (0 + b.length) (by omega), Nat.zero_add,
      toInt32_of_lt _ hsz]
    constructor
    · simp
    · simp only [Run.trace_after, Run.trace_done, List.append_nil, written_recv, written_open,
        List.cons_append, List.nil_append, written_append, written_storeRounds c _ _ hf,
        flatten_chunkAt]
      apply List.take_of_length_le
      omega

theorem sentMsgs_sendFile_delivered (c : SecureMessageCreator) (hc : inverts c) (b : List Byte)
    (stars : Bool) (k rem j : Nat) (hrem : 0 < rem) (hlt : rem < BUFF_SIZE)
    (hb : b.length = k * BUFF_SIZE + rem) (hsz : b.length < 2 ^ 31) (hj : j ≤ k + 1) :
    sentMsgs (sendFile c (some b) stars
        (deliver (List.replicate j (c.EncryptAndSignMessage ackOK)))).trace =
      c.EncryptAndSignMessage (to_string (b.length : Int)) ::
        (List.range (min (j + 1) (k + 1))).map
          (fun i => c.EncryptAndSignMessage (chunkAt b i)) := by
  by_cases hjk : j ≤ k
  · rw [(sendFile_waiting c hc b stars k rem j hrem hb hsz hjk).2, Nat.min_eq_left (by omega)]
  · have e : j = k + 1 := by omega
    rw [e, (sendFile_complete c hc b stars k rem hrem hlt hb hsz).2, Nat.min_eq_right (by omega)]

/-- The rounds of the joint run for a file off the exact multiples: in round
`t + 1` the sender has been delivered `(t + 1) / 2` acknowledgments and the
receiver the size and `(t + 2) / 2` chunks, each capped by the number of
chunks. -/
theorem exchange_rounds (c : SecureMessageCreator) (hc : inverts c) (b : List Byte)
    (stars : Bool) (canOpen : String → Bool) (filename : String) (writer₀ : List Byte)
    (fileSize₀ : Nat) (k rem : Nat) (hrem : 0 < rem) (hlt : rem < BUFF_SIZE)
    (hb : b.length = k * BUFF_SIZE + rem) (hsz : b.length < 2 ^ 31)
    (hopen : canOpen filename = true) :
    ∀ t, exchange c b stars canOpen filename writer₀ fileSize₀ (t + 1) =
      (sendFile c (some b) stars
          (deliver (List.replicate (min ((t + 1) / 2) (k + 1)) (c.EncryptAndSignMessage ackOK))),
        receiveFile c canOpen filename writer₀ fileSize₀
          (deliver (c.EncryptAndSignMessage (to_string (b.length : Int)) ::
            (List.range (min ((t + 2) / 2) (k + 1))).map
              (fun i => c.EncryptAndSignMessage (chunkAt b i))))) := by
  intro t
  induction t with
  | zero =>
    show (sendFile c (some b) stars (deliver (sentMsgs
            (receiveFile c canOpen filename writer₀ fileSize₀ []).trace)),
          receiveFile c canOpen filename writer₀ fileSize₀ (deliver (sentMsgs
            (sendFile c (some b) stars []).trace))) = _
    have h0 := (sendFile_waiting c hc b stars k rem 0 hrem hb hsz (Nat.zero_le _)).2
    have hd : deliver (List.replicate 0 (c.EncryptAndSignMessage ackOK)) = [] := rfl
    rw [hd] at h0
    have hR0 : (receiveFile c canOpen filename writer₀ fileSize₀ []).trace = [] := rfl
    have e1 : min ((0 + 1) / 2) (k + 1) = 0 := by
      have : (0 + 1) / 2 = 0 := by decide
      rw [this]
      exact Nat.zero_min _
    have e2 : min ((0 + 2) / 2) (k + 1) = 0 + 1 := by
      have : (0 + 2) / 2 = 1 := by decide
      rw [this]
      exact Nat.min_eq_left (by omega)
    rw [h0, hR0, e1, e2]
    rfl
  | succ t ih =>
    show (sendFile c (some b) stars (deliver (sentMsgs
            (exchange c b stars canOpen filename writer₀ fileSize₀ (t + 1)).2.trace)),
          receiveFile c canOpen filename writer₀ fileSize₀ (deliver (sentMsgs
            (exchange c b stars canOpen filename writer₀ fileSize₀ (t + 1)).1.trace))) = _
    rw [ih]
    have hR := (receiveFile_delivered c hc b canOpen filename writer₀ fileSize₀ k rem
      (min ((t + 2) / 2) (k + 1)) hrem hlt hb hsz hopen (Nat.min_le_right _ _)).1
    have hS := sentMsgs_sendFile_delivered c hc b stars k rem (min ((t + 1) / 2) (k + 1))
      hrem hlt hb hsz (Nat.min_le_right _ _)
    have e1 : min (min ((t + 1) / 2) (k + 1) + 1) (k + 1) = min ((t + 1 + 2) / 2) (k + 1) := by
      omega
    have e2 : (t + 1 + 1) / 2 = (t + 2) / 2 := rfl
    simp only [hR, hS, e1, e2]

/-- Transfer fidelity off the exact multiples: for a file of
`k * BUFF_SIZE + rem` bytes with `0 < rem < BUFF_SIZE` whose length fits an
`int`, a capability that inverts itself and a destination that opens, from
round `2 * (k + 1)` on of the joint run both `sendFile` and `receiveFile` have
returned the length, and the file written is exactly the source. -/
theorem exchange_off_multiple (c : SecureMessageCreator) (hc : inverts c) (b : List Byte)
    (stars : Bool) (canOpen : String → Bool) (filename : String) (writer₀ : List Byte)
    (fileSize₀ : Nat) (k rem : Nat) (hrem : 0 < rem) (hlt : rem < BUFF_SIZE)
    (hb : b.length = k * BUFF_SIZE + rem) (hsz : b.length < 2 ^ 31)
    (hopen : canOpen filename = true) (t : Nat) :
    (exchange c b stars canOpen filename writer₀ fileSize₀ (t + 2 * (k + 1))).1.ret =
      some (b.length : Int) ∧
    (exchange c b stars canOpen filename writer₀ fileSize₀ (t + 2 * (k + 1))).2.ret =
      some (b.length : Int) ∧
    written (exchange c b stars canOpen filename writer₀ fileSize₀ (t + 2 * (k + 1))).2.trace =
      b := by
  have e : t + 2 * (k + 1) = (t + 2 * k + 1) + 1 := by ring
  have e1 : min ((t + 2 * k + 1 + 1) / 2) (k + 1) = k + 1 := by omega
  have e2 : min ((t + 2 * k + 1 + 2) / 2) (k + 1) = k + 1 := by omega
  rw [e, exchange_rounds c hc b stars canOpen filename writer₀ fileSize₀ k rem hrem hlt hb hsz
    hopen (t + 2 * k + 1), e1, e2]
  have hR := (receiveFile_delivered c hc b canOpen filename writer₀ fileSize₀ k rem (k + 1)
    hrem hlt hb hsz hopen (Nat.le_refl _)).2 rfl
  exact ⟨(sendFile_complete c hc b stars k rem hrem hlt hb hsz).1, hR.1, hR.2⟩

/-- Transfer fidelity for the empty file: from the first round on of the joint
run `sendFile` has sent the size "0" and returned 0, and `receiveFile` has
opened the destination, written nothing and returned 0. -/
theorem exchange_empty (c : SecureMessageCreator) (hc : inverts c) (stars : Bool)
    (canOpen : String → Bool) (filename : String) (writer₀ : List Byte) (fileSize₀ : Nat)
    (hopen : canOpen filename = true) (t : Nat) :
    exchange c [] stars canOpen filename writer₀ fileSize₀ (t + 1) =
      (⟨[sendSecureMsg c [48]], some 0⟩,
        ⟨[Event.recvMsg ⟨((c.EncryptAndSignMessage [48]).length : Int),
            c.EncryptAndSignMessage [48]⟩, Event.fileOpen filename true], some 0⟩) := by
  have hS : ∀ inc, sendFile c (some []) stars inc = ⟨[sendSecureMsg c [48]], some 0⟩ :=
    fun _ => rfl
  have hsize : extractSize (cString [48]) fileSize₀ = 0 := rfl
  have hR : receiveFile c canOpen filename writer₀ fileSize₀
      (deliver [c.EncryptAndSignMessage [48]]) =
      ⟨[Event.recvMsg ⟨((c.EncryptAndSignMessage [48]).length : Int),
          c.EncryptAndSignMessage [48]⟩, Event.fileOpen filename true], some 0⟩ := by
    rw [deliver_cons, receiveFile_announced c canOpen filename writer₀ fileSize₀ _ _ _
      (verifies_delivered c hc [48]) hopen, hsize, receiveChunks_done c _ 0 0 (Nat.le_refl 0)]
    rfl
  show (sendFile c (some []) stars _, receiveFile c canOpen filename writer₀ fileSize₀
    (deliver (sentMsgs (exchange c [] stars canOpen filename writer₀ fileSize₀ t).1.trace))) = _
  have hprev : (exchange c [] stars canOpen filename writer₀ fileSize₀ t).1 =
      ⟨[sendSecureMsg c [48]], some 0⟩ := by
    cases t with
    | zero => exact hS _
    | succ t => exact hS _
  rw [hS, hprev]
  simp only [sentMsgs_secure, sentMsgs_nil]
  rw [hR]

/-! ## C11: the receiver's counter and the declared size -/

theorem totalLength_append (xs ys : List (List Byte)) :
    totalLength (xs ++ ys) = totalLength xs + totalLength ys := by
  simp [totalLength]

theorem length_written_storeRounds (c : SecureMessageCreator) (rs : List Received)
    (ps : List (List Byte)) (hf : List.Forall₂ (verifies c) rs ps) :
    (written (storeRounds c rs ps)).length = totalLength ps := by
  rw [written_storeRounds c rs ps hf, totalLength_eq_length_flatten]

/-- C11 (as amended): for a declared size n and valid non-empty chunks
received until the counter reaches n (destination opened), fewer than
`2 ^ 31` bytes in all, the counter of `receiveFile` is below n before each
chunk and advances by the whole length of the chunk, so the returned total,
which is also the number of bytes written, is at least n and exceeds n by
less than the length of the last chunk; it equals n exactly when the chunk
lengths sum to n.  Whatever the peer sends, a run that writes fewer than
`2 ^ 31` bytes and returns a value other than -1 and -2 returns the number of
bytes written, which is at least n. -/
theorem receiveFile_counter (c : SecureMessageCreator) (canOpen : String → Bool)
    (filename : String) (writer₀ : List Byte) (fileSize₀ : Nat) (r₀ : Received) (a : List Byte)
    (rs : List Received) (init : List (List Byte)) (last : List Byte) (more : List Received)
    (hv : verifies c r₀ a) (hopen : canOpen filename = true)
    (hf : List.Forall₂ (verifies c) rs (init ++ [last]))
    (hne : ∀ p ∈ init ++ [last], p ≠ [])
    (hlt : totalLength init < extractSize (cString a) fileSize₀)
    (hge : extractSize (cString a) fileSize₀ ≤ totalLength init + last.length)
    (hsz : totalLength init + last.length < 2 ^ 31) :
    (receiveFile c canOpen filename writer₀ fileSize₀ (r₀ :: (rs ++ more))).ret =
      some ((totalLength init + last.length : Nat) : Int) ∧
    (written (receiveFile c canOpen filename writer₀ fileSize₀
      (r₀ :: (rs ++ more))).trace).length = totalLength init + last.length ∧
    written (receiveFile c canOpen filename writer₀ fileSize₀ (r₀ :: (rs ++ more))).trace =
      init.flatten ++ last ∧
    totalLength init + last.length < extractSize (cString a) fileSize₀ + last.length ∧
    ((receiveFile c canOpen filename writer₀ fileSize₀ (r₀ :: (rs ++ more))).ret =
        some (extractSize (cString a) fileSize₀ : Int) ↔
      totalLength init + last.length = extractSize (cString a) fileSize₀) ∧
    (∀ (inc : List Received) (v : Int),
      (written (receiveFile c canOpen filename writer₀ fileSize₀ (r₀ :: inc)).trace).length <
        2 ^ 31 →
      (receiveFile c canOpen filename writer₀ fileSize₀ (r₀ :: inc)).ret = some v →
        v = -1 ∨ v = -2 ∨
          (v = ((written (receiveFile c canOpen filename writer₀ fileSize₀
              (r₀ :: inc)).trace).length : Int) ∧
            (extractSize (cString a) fileSize₀ : Int) ≤ v)) := by
  have htot : totalLength (init ++ [last]) = totalLength init + last.length := by
    rw [totalLength_append]
    simp
  have hlt0 : init ++ [last] ≠ [] →
      0 + totalLength (init ++ [last]).dropLast < extractSize (cString a) fileSize₀ := by
    intro _
    rw [List.dropLast_concat]
    omega
  have hfile : receiveFile c canOpen filename writer₀ fileSize₀ (r₀ :: (rs ++ more)) =
      ⟨Event.recvMsg r₀ :: Event.fileOpen filename true :: storeRounds c rs (init ++ [last]),
        some ((totalLength init + last.length : Nat) : Int)⟩ := by
    rw [receiveFile_announced c canOpen filename writer₀ fileSize₀ r₀ _ a hv hopen,
      receiveChunks_storeRounds c _ rs (init ++ [last]) more 0 hf hne hlt0 (Nat.zero_le _),
      Nat.zero_add, htot, toSizeT_of_le _ (lt_two_pow_le_SIZE_MAX _ hsz),
      receiveChunks_done c more _ _ hge, toInt32_of_lt _ hsz]
    simp [Run.after, Run.done]
  have hw : written (receiveFile c canOpen filename writer₀ fileSize₀
      (r₀ :: (rs ++ more))).trace = init.flatten ++ last := by
    rw [hfile]
    simp [written_storeRounds c rs _ hf]
  refine ⟨by rw [hfile], ?_, hw, by omega, ?_, ?_⟩
  · rw [hw, List.length_append, ← totalLength_eq_length_flatten]
  · rw [hfile]
    constructor
    · intro h
      have h2 := Option.some.inj h
      omega
    · intro h
      rw [h]
  · intro inc v hb h
    exact receiveFile_ret c canOpen filename writer₀ fileSize₀ r₀ a hv hopen inc v hb h

/-- C11 (witness): size 5 received as the chunks `1, 2, 3` and `4, 5`. -/
theorem receiveFile_counter_witness :
    (receiveFile tagCrypto (fun _ => true) "upload" [] 0
      (demoSize5 :: ([demoChunkA, demoChunkB] ++ []))).ret =
      some ((totalLength [[1, 2, 3]] + ([4, 5] : List Byte).length : Nat) : Int) ∧
    written (receiveFile tagCrypto (fun _ => true) "upload" [] 0
      (demoSize5 :: ([demoChunkA, demoChunkB] ++ []))).trace = [[1, 2, 3]].flatten ++ [4, 5] :=
  have h := receiveFile_counter tagCrypto (fun _ => true) "upload" [] 0 demoSize5 [53]
    [demoChunkA, demoChunkB] [[1, 2, 3]] [4, 5] [] ⟨by decide, by decide⟩ rfl
    (List.Forall₂.cons ⟨by decide, by decide⟩
      (List.Forall₂.cons ⟨by decide, by decide⟩ List.Forall₂.nil))
    (by decide) (by decide) (by decide) (by decide)
  ⟨h.1, h.2.2.1⟩

/-- C11 (counterexample to the claim as stated): the declared size is 5 and
the peer sends one valid chunk of 6 bytes; `receiveFile` writes all 6 bytes
and returns 6, which exceeds the declared size. -/
theorem receiveFile_overshoot :
    verifies tagCrypto demoSize5 [53] ∧ extractSize (cString [53]) 0 = 5 ∧
    verifies tagCrypto demoChunkC [1, 2, 3, 4, 5, 6] ∧
    receiveFile tagCrypto (fun _ => true) "upload" [] 0 [demoSize5, demoChunkC] =
      ⟨[Event.recvMsg demoSize5, Event.fileOpen "upload" true, Event.recvMsg demoChunkC,
        sendSecureMsg tagCrypto ackOK, Event.fileWrite [1, 2, 3, 4, 5, 6]], some 6⟩ ∧
    ¬ ((6 : Int) ≤ 5) := by
  refine ⟨⟨by decide, by decide⟩, by decide, ⟨by decide, by decide⟩, by decide, by decide⟩

/-! ## C12: secure messaging and the handshake -/

/-- C12 (as amended): secure messaging consults no handshake state, the
connection object holding none.  On every connection, and so on one that was
only constructed, `sendSecureMsg` hands exactly one message, the envelope of
the buffer, to the transport, and `recvSecureMsg` returns the plaintext, with
its length, of every envelope that `DecryptAndCheckSign` accepts. -/
theorem secure_messaging_ungated (fresh : SecureMessageCreator) (buffer : List Byte)
    (r : Received) (plainText : List Byte) :
    sentMsgs [(SecureConnection.construct fresh).sendSecureMsg buffer] =
      [fresh.EncryptAndSignMessage buffer] ∧
    (∀ p, verifies fresh r p →
      (SecureConnection.construct fresh).recvSecureMsg r plainText = ((p.length : Int), p)) ∧
    (∀ conn : SecureConnection,
      sentMsgs [conn.sendSecureMsg buffer] = [conn._sMsgCreator.EncryptAndSignMessage buffer] ∧
      ∀ p, verifies conn._sMsgCreator r p → conn.recvSecureMsg r plainText = ((p.length : Int), p)) := by
  refine ⟨rfl, ?_, ?_⟩
  · intro p hp
    exact recvSecureMsg_verifies fresh r plainText p hp
  · intro conn
    refine ⟨rfl, ?_⟩
    intro p hp
    exact recvSecureMsg_verifies conn._sMsgCreator r plainText p hp

/-- C12 (witness): a connection constructed over the demonstration capability
receives a delivered acknowledgment. -/
theorem secure_messaging_ungated_witness :
    verifies tagCrypto demoAck ackOK ∧
    (SecureConnection.construct tagCrypto).recvSecureMsg demoAck [] = ((ackOK.length : Int), ackOK) :=
  ⟨⟨by decide, by decide⟩,
    (secure_messaging_ungated tagCrypto [] demoAck []).2.1 ackOK ⟨by decide, by decide⟩⟩

/-- C12 (counterexample to the claim as stated): on a connection that was
only constructed, `sendSecureMsg` of the two bytes "hi" hands three bytes to
the transport, and `recvSecureMsg` returns the plaintext of a delivered
acknowledgment. -/
theorem constructed_connection_sends_and_receives :
    sentMsgs [(SecureConnection.construct tagCrypto).sendSecureMsg [104, 105]] = [[43, 104, 105]] ∧
    sentMsgs [(SecureConnection.construct tagCrypto).sendSecureMsg [104, 105]] ≠ [] ∧
    (SecureConnection.construct tagCrypto).recvSecureMsg demoAck [] = (3, ackOK) := by
  refine ⟨by decide, by decide, by decide⟩

/-! ## C13: a size announcement that is not decimal text -/

theorem extractSize_notDecimal (text : List Byte) (f : Nat) (h : notDecimal text) :
    extractSize text f = 0 := by
  obtain ⟨b, t, hd, hdig, h45, h43⟩ := h
  unfold extractSize
  rw [hd]
  simp [h45, h43, List.takeWhile_cons, hdig]

/-- C13 (as amended): `receiveFile` does not reject a size announcement for
its text.  For every verified announcement whose text, after leading white
space, starts with a character that is neither a digit nor a sign (such as
"abc"), the extraction stores the size 0: `receiveFile` opens the destination,
receives no chunk, sends nothing and returns 0, the very value it returns
after the announcement "0" of an empty file.  For every verified
announcement it goes on to the chunk loop with the extracted size. -/
theorem receiveFile_size_not_decimal (c : SecureMessageCreator) (canOpen : String → Bool)
    (filename : String) (writer₀ : List Byte) (fileSize₀ : Nat) (r₀ : Received) (a : List Byte)
    (more : List Received)
    (hv : verifies c r₀ a) (hopen : canOpen filename = true) (hnd : notDecimal (cString a)) :
    extractSize (cString a) fileSize₀ = 0 ∧
    receiveFile c canOpen filename writer₀ fileSize₀ (r₀ :: more) =
      ⟨[Event.recvMsg r₀, Event.fileOpen filename true], some 0⟩ ∧
    (∀ (z : Received), verifies c z [48] →
      (receiveFile c canOpen filename writer₀ fileSize₀ (z :: more)).ret = some 0) ∧
    (∀ (z : Received) (text : List Byte) (inc : List Received), verifies c z text →
      receiveFile c canOpen filename writer₀ fileSize₀ (z :: inc) =
        Run.after [Event.recvMsg z, Event.fileOpen filename true]
          (receiveChunks c inc (extractSize (cString text) fileSize₀) 0)) := by
  have h0 := extractSize_notDecimal (cString a) fileSize₀ hnd
  refine ⟨h0, ?_, ?_, ?_⟩
  · rw [receiveFile_announced c canOpen filename writer₀ fileSize₀ r₀ _ a hv hopen, h0,
      receiveChunks_done c more 0 0 (Nat.le_refl 0)]
    rfl
  · intro z hz
    have hsize : extractSize (cString [48]) fileSize₀ = 0 := rfl
    rw [receiveFile_announced c canOpen filename writer₀ fileSize₀ z _ [48] hz hopen, hsize,
      receiveChunks_done c more 0 0 (Nat.le_refl 0)]
    rfl
  · intro z text inc hz
    exact receiveFile_announced c canOpen filename writer₀ fileSize₀ z inc text hz hopen

/-- C13 (witness): the announcement "abc". -/
theorem receiveFile_size_not_decimal_witness :
    verifies tagCrypto demoAbc [97, 98, 99] ∧ notDecimal (cString [97, 98, 99]) ∧
    receiveFile tagCrypto (fun _ => true) "upload" [] 7 (demoAbc :: []) =
      ⟨[Event.recvMsg demoAbc, Event.fileOpen "upload" true], some 0⟩ :=
  have hnd : notDecimal (cString [97, 98, 99]) :=
    ⟨97, [98, 99], by decide, by decide, by decide, by decide⟩
  ⟨⟨by decide, by decide⟩, hnd,
    (receiveFile_size_not_decimal tagCrypto (fun _ => true) "upload" [] 7 demoAbc
      [97, 98, 99] [] ⟨by decide, by decide⟩ rfl hnd).2.1⟩

/-- C13 (counterexample to the claim as stated): after the announcement "abc"
`receiveFile` returns 0, which is not negative and is the value it returns
after the announcement "0". -/
theorem receiveFile_abc_returns_zero :
    verifies tagCrypto demoAbc [97, 98, 99] ∧
    (receiveFile tagCrypto (fun _ => true) "upload" [] 7 [demoAbc]).ret = some 0 ∧
    (receiveFile tagCrypto (fun _ => true) "upload" [] 7 [demoSize0]).ret = some 0 ∧
    ¬ ((0 : Int) < 0) := by
  refine ⟨⟨by decide, by decide⟩, by decide, by decide, by decide⟩

/-! ## C14: the two receivers -/

/-- When the size announcement is a peer close, each receiver reads its own
uninitialised locals.  On a close followed by the chunks `1, 2, 3` and
`4, 5`, `receiveFile` with an empty text and the value 0 in its locals
consumes one result, sends nothing and returns 0, while
`reciveAndPrintBigMessage` with the value 7 in its `fileSize` consumes all
three results, sends two acknowledgments and waits. -/
theorem receivers_differ_on_uninitialised :
    receiveFile tagCrypto (fun _ => true) "upload" [] 0 [demoClosed, demoChunkA, demoChunkB] =
      ⟨[Event.recvMsg demoClosed, Event.fileOpen "upload" true], some 0⟩ ∧
    recvResults (reciveAndPrintBigMessage tagCrypto [] 7
      [demoClosed, demoChunkA, demoChunkB]).trace = [demoClosed, demoChunkA, demoChunkB] ∧
    sentMsgs (reciveAndPrintBigMessage tagCrypto [] 7
      [demoClosed, demoChunkA, demoChunkB]).trace =
      [tagCrypto.EncryptAndSignMessage [79, 75, 0], tagCrypto.EncryptAndSignMessage [79, 75, 0]] ∧
    (reciveAndPrintBigMessage tagCrypto [] 7 [demoClosed, demoChunkA, demoChunkB]).ret = none := by
  refine ⟨by decide, by decide, by decide, by decide⟩

theorem receiveCommad_rejected (c : SecureMessageCreator) (s : Int) (r : Received)
    (h : rejected c r) : receiveCommad c s r = ([], s) := by
  simp [receiveCommad, recvSecureMsg_rejected c r [] h]

theorem receiveCommad_closed (c : SecureMessageCreator) (s : Int) (r : Received)
    (h : peerClosed r ∨ verifies c r []) : receiveCommad c s r = ([], -1) := by
  rcases h with h | h
  · simp [receiveCommad, recvSecureMsg_closed c r [] h]
  · simp [receiveCommad, recvSecureMsg_verifies c r [] [] h]

theorem receiveCommad_verifies (c : SecureMessageCreator) (s : Int) (r : Received)
    (p : List Byte) (h : verifies c r p) (hp : p ≠ []) :
    receiveCommad c s r = (cString p, s) := by
  have hlen : 0 < p.length := List.length_pos.mpr hp
  have h1 : ¬ ((p.length : Int) < 0) := by omega
  have h2 : ¬ ((p.length : Int) = 0) := by omega
  simp [receiveCommad, recvSecureMsg_verifies c r [] p h, h1, h2]

/-- C15 (the code at the failing input): in one call of `manageConnection`,
when the command fails verification the call returns with `_activeSocket`
unchanged and without a forced disconnection, so the connection stays
active.  When the receive of the command reports a close, `_activeSocket` is
-1 on return; and when an upload command runs `receiveFile` to a returned
value `v`, `_activeSocket` is -1 with one forced disconnection for `v < 0`
and unchanged for `0 ≤ v`. -/
theorem manageConnection_failures (c : SecureMessageCreator) (canOpen : String → Bool)
    (writer₀ : List Byte) (fileSize₀ : Nat) (s : Int) (r : Received) (more : List Received) :
    (rejected c r →
      manageConnection c canOpen writer₀ fileSize₀ s (r :: more) =
        ⟨[Event.recvMsg r], true, s, 0⟩) ∧
    (peerClosed r ∨ verifies c r [] →
      manageConnection c canOpen writer₀ fileSize₀ s (r :: more) =
        ⟨[Event.recvMsg r], true, -1, 0⟩) ∧
    (∀ (text : List Byte) (v : Int), verifies c r text →
      (extractWord (cString text)).1 = [117] →
      (receiveFile c canOpen
        ("uploadedFile/" ++ bytesToString (extractWord (extractWord (cString text)).2).1)
        writer₀ fileSize₀ more).ret = some v →
      (manageConnection c canOpen writer₀ fileSize₀ s (r :: more)).returned = true ∧
      (v < 0 →
        (manageConnection c canOpen writer₀ fileSize₀ s (r :: more))._activeSocket = -1 ∧
        (manageConnection c canOpen writer₀ fileSize₀ s (r :: more)).disconnections = 1) ∧
      (0 ≤ v →
        (manageConnection c canOpen writer₀ fileSize₀ s (r :: more))._activeSocket = s ∧
        (manageConnection c canOpen writer₀ fileSize₀ s (r :: more)).disconnections = 0)) := by
  refine ⟨?_, ?_, ?_⟩
  · intro h
    have hw : ¬ ((extractWord []).1 = [117]) := by decide
    simp [manageConnection, receiveCommad_rejected c s r h, hw]
  · intro h
    have hw : ¬ ((extractWord []).1 = [117]) := by decide
    simp [manageConnection, receiveCommad_closed c s r h, hw]
  · intro text v hv hu hret
    have hne : text ≠ [] := by
      intro h
      subst h
      exact absurd hu (by decide)
    refine ⟨?_, ?_, ?_⟩
    · simp [manageConnection, receiveCommad_verifies c s r text hv hne, hu, uploadCommand, hret]
      split <;> rfl
    · intro hneg
      simp [manageConnection, receiveCommad_verifies c s r text hv hne, hu, uploadCommand, hret,
        hneg]
    · intro hpos
      have hneg : ¬ v < 0 := by omega
      simp [manageConnection, receiveCommad_verifies c s r text hv hne, hu, uploadCommand, hret,
        hneg]

/-- C15 (witness): the active socket is 4 and the command is a forged
envelope. -/
theorem manageConnection_failures_witness :
    rejected tagCrypto demoForged ∧
    manageConnection tagCrypto (fun _ => true) [] 0 4 (demoForged :: []) =
      ⟨[Event.recvMsg demoForged], true, 4, 0⟩ :=
  ⟨⟨by decide, by decide⟩,
    (manageConnection_failures tagCrypto (fun _ => true) [] 0 4 demoForged []).1
      ⟨by decide, by decide⟩⟩

/-- The peer closes right after the command "u f": `receiveFile` passes the
close of the size announcement, finds the size 0 and returns 0, and
`manageConnection` returns with the socket 4 still active. -/
theorem manageConnection_close_at_size :
    manageConnection tagCrypto (fun _ => true) [] 0 4 [demoUpload, demoClosed] =
      ⟨[Event.recvMsg demoUpload, Event.recvMsg demoClosed,
        Event.fileOpen "uploadedFile/f" true], true, 4, 0⟩ := by
  decide

end FileTransfer
